import Mathlib

/-!
A verification development for the dotfiles deployment script in deploy.py.

The script walks a source tree, parses an optional trailing specialization
suffix on each filename (of the form name followed by an angle-bracketed
qualifier), validates it against the current username/hostname identity with
a regular expression built by string formatting, scores it with a second
regular expression, and accumulates a destination-path to source-path map in
which a strictly higher-priority candidate replaces the incumbent.

Conventions of the embedding:
* Python values that can be absent are Option; a Python run that raises an
  exception is PyVal.exn; identities whose username or host uses a regex
  feature outside the modeled fragment (character classes, repetition with
  star or plus, groups, anchors, escapes) give PyVal.undef.
* The regular expressions the script builds by formatting the username and
  the host into a fixed skeleton are modeled by a small backtracking engine
  (Re) whose alternation is left-preferring and whose optional and star
  operators are greedy, exactly as in Python's re module; the dollar anchor
  ending each of the script's patterns accepts a remainder that is empty or
  a single final newline, as Python's dollar matches at the end of the
  input or just before a newline that ends it, and a dot atom matches any
  character other than a newline, as in Python without DOTALL.
* Paths are POSIX strings; abspath and relpath are modeled for absolute
  inputs, which is the only way the script uses them (main makes both roots
  absolute before any path computation).
-/

/-- Outcome of a modeled Python computation: a value, a raised exception, or
a case outside the modeled regex fragment. -/
inductive PyVal (α : Type) where
  | ok (a : α)
  | exn
  | undef
deriving DecidableEq, Repr

/-! ## A small backtracking regex engine

Enough of Python's re module for the two patterns the script builds:
literal characters, the dot atom, left-preferring alternation, greedy
option, greedy star, and numbered capture groups. -/

/-- Regex abstract syntax: the fragment of Python re syntax the script's
patterns can use. -/
inductive Re where
  | eps
  | char (c : Char)
  | any
  | seq (r₁ r₂ : Re)
  | alt (r₁ r₂ : Re)
  | opt (r : Re)
  | star (r : Re)
  | group (i : Nat) (r : Re)
deriving DecidableEq, Repr

/-- Captured groups: group index paired with the captured characters. -/
abbrev Caps := List (Nat × List Char)

/-- Record a capture for group i, superseding any earlier capture of i. -/
def capSet (i : Nat) (v : List Char) (caps : Caps) : Caps :=
  (i, v) :: caps.filter (fun p => p.1 != i)

/-- The backtracking runs of a greedy star over a body whose runs are f:
iterate the body first and stop last, like Python's star, which tries the
longest repetition first.  An iteration must consume input (the script only
stars single-character atoms, which always do); the fuel argument, called
with more fuel than the input has characters, therefore never runs out
before the input does. -/
def starRunsAux (f : List Char → Caps → List (Caps × List Char)) :
    Nat → List Char → Caps → List (Caps × List Char)
  | 0, s, caps => [(caps, s)]
  | fuel + 1, s, caps =>
      ((f s caps).flatMap (fun pr =>
        if pr.2.length < s.length then starRunsAux f fuel pr.2 pr.1 else [])) ++ [(caps, s)]

/-- The capture-free shadow of starRunsAux, over a body whose remainders
are g. -/
def starRestsAux (g : List Char → List (List Char)) :
    Nat → List Char → List (List Char)
  | 0, s => [s]
  | fuel + 1, s =>
      ((g s).flatMap (fun t =>
        if t.length < s.length then starRestsAux g fuel t else [])) ++ [s]

/-- All ways a regex can consume a prefix of the input, in the priority
order of Python's backtracking search: each element is the captures made so
far together with the remaining input.  Alternation tries its left branch
first and the optional operator tries to match before matching nothing,
exactly as in Python's re. -/
def Re.runs : Re → List Char → Caps → List (Caps × List Char)
  | .eps, s, caps => [(caps, s)]
  | .char c, s, caps =>
      match s with
      | [] => []
      | x :: rest => if x = c then [(caps, rest)] else []
  | .any, s, caps =>
      match s with
      | [] => []
      | x :: rest => if x = '\n' then [] else [(caps, rest)]
  | .seq r₁ r₂, s, caps => (r₁.runs s caps).flatMap (fun pr => r₂.runs pr.2 pr.1)
  | .alt r₁ r₂, s, caps => r₁.runs s caps ++ r₂.runs s caps
  | .opt r, s, caps => r.runs s caps ++ [(caps, s)]
  | .star r, s, caps => starRunsAux (fun s' caps' => r.runs s' caps') (s.length + 1) s caps
  | .group i r, s, caps =>
      (r.runs s caps).map
        (fun pr => (capSet i (s.take (s.length - pr.2.length)) pr.1, pr.2))

/-- The remainders a regex can leave, forgetting captures: the capture-free
shadow of Re.runs, used to compare patterns that differ only in grouping. -/
def Re.rests : Re → List Char → List (List Char)
  | .eps, s => [s]
  | .char c, s =>
      match s with
      | [] => []
      | x :: rest => if x = c then [rest] else []
  | .any, s =>
      match s with
      | [] => []
      | x :: rest => if x = '\n' then [] else [rest]
  | .group _ r, s => r.rests s
  | .seq r₁ r₂, s => (r₁.rests s).flatMap r₂.rests
  | .alt r₁ r₂, s => r₁.rests s ++ r₂.rests s
  | .opt r, s => r.rests s ++ [s]
  | .star r, s => starRestsAux (fun s' => r.rests s') (s.length + 1) s

/-- Whether a remainder satisfies Python's dollar anchor: the anchor
matches at the end of the input and also just before a newline that ends
the input, so the remainder it leaves is empty or a single final
newline. -/
def atDollar (s : List Char) : Bool := s.isEmpty || s == ['\n']

/-- re.match of a pattern anchored at both ends against a whole string: the
first backtracking run whose remainder the final dollar anchor accepts, if
any, giving its captures. -/
def reFullMatch (r : Re) (s : List Char) : Option Caps :=
  ((r.runs s []).find? (fun pr => atDollar pr.2)).map Prod.fst

/-- Python truthiness count of match.groups(): the number of groups that
were captured and captured a non-empty string. -/
def countTruthy (caps : Caps) : Int :=
  Int.ofNat ((caps.filter (fun p => !p.2.isEmpty)).length)

/-- Metacharacters whose appearance in the username or the host takes the
formatted pattern outside the modeled regex fragment (or, for unbalanced
parentheses, makes re.compile raise). -/
def reMeta : List Char :=
  ['|', '(', ')', '[', ']', '\x7b', '\x7d', '*', '+', '?', '^', '$', '\\']

/-- A character the regex compiler treats as a literal: not a metacharacter
and not the dot atom. -/
def plainChar (c : Char) : Bool := !(reMeta.contains c) && c != '.'

/-- A string all of whose characters are regex-literal. -/
def plainStr (s : String) : Bool := s.toList.all plainChar

/-- The regex denotation of a literal character sequence. -/
def lit : List Char → Re
  | [] => .eps
  | c :: cs => .seq (.char c) (lit cs)

/-- Compile a username or host fragment the way Python's re parser reads it
inside the formatted pattern: ordinary characters match themselves, a dot
matches any character except a newline, a question mark makes the preceding
atom optional, a star repeats the preceding atom greedily; any other
metacharacter leaves the modeled fragment (none). -/
def compileFrag : List Char → Option Re
  | [] => some .eps
  | c :: '?' :: rest =>
      if reMeta.contains c then none
      else
        (compileFrag rest).map
          (fun r => Re.seq (.opt (if c = '.' then Re.any else Re.char c)) r)
  | c :: '*' :: rest =>
      if reMeta.contains c then none
      else
        (compileFrag rest).map
          (fun r => Re.seq (.star (if c = '.' then Re.any else Re.char c)) r)
  | c :: rest =>
      if reMeta.contains c then none
      else
        (compileFrag rest).map
          (fun r => Re.seq (if c = '.' then Re.any else Re.char c) r)

/-- The pattern is_valid formats and compiles, as an AST over the compiled
username U and host H: an outer group 1 around the alternation of H with
U followed by an optional group 2 holding an at sign and H, the whole
anchored at both ends. -/
def validAST (U H : Re) : Re :=
  .group 1 (.alt H (.seq U (.opt (.group 2 (.seq (.char '@') H)))))

/-- The pattern get_priority formats and compiles: it differs from the
is_valid pattern by one more pair of parentheses, group 2 around the
username alternative, making the optional at-host part group 3. -/
def prioAST (U H : Re) : Re :=
  .group 1 (.alt H (.group 2 (.seq U (.opt (.group 3 (.seq (.char '@') H))))))

/-- Compile the is_valid pattern for a given identity. -/
def validPattern (user host : String) : Option Re :=
  match compileFrag user.toList, compileFrag host.toList with
  | some U, some H => some (validAST U H)
  | _, _ => none

/-- Compile the get_priority pattern for a given identity. -/
def prioPattern (user host : String) : Option Re :=
  match compileFrag user.toList, compileFrag host.toList with
  | some U, some H => some (prioAST U H)
  | _, _ => none

/-! ## Filename parsing: SpecializedItem._split_specialization

The parsing regex is fixed, so its behavior is translated directly: the
name group is a non-greedy non-empty run of non-newline characters, and the
optional suffix group is an angle-bracketed run of characters other than an
opening angle bracket, closed by a dollar anchor, with a second dollar
anchor ending the pattern.  Both anchors match at the end of the filename
or just before a newline that ends it.  When the filename ends with a
newline, every match must leave exactly that newline: the suffix group ends
in a closing angle bracket and the name group cannot contain a newline, so
neither can reach past it, and no shorter remainder satisfies the anchors.
Matching is therefore exactly end-anchored matching on the filename with
one final newline removed, which is how the translation proceeds. -/

/-- If the rest of a filename has the shape of a specialization suffix — an
opening angle bracket, then characters none of which is an opening angle
bracket, then a closing angle bracket ending the string — return the
characters between the brackets. -/
def qualSuffix : List Char → Option (List Char)
  | '<' :: rest =>
      match rest.reverse with
      | '>' :: midRev =>
          if midRev.contains '<' then none else some midRev.reverse
      | _ => none
  | _ => none

/-- The backtracking search of the parsing regex: the name group takes the
shortest non-empty newline-free prefix after which the remainder is either
empty (no suffix group, specialization None) or a well-formed suffix. -/
def splitNameSpec (acc : List Char) : List Char → Option (List Char × Option (List Char))
  | [] => none
  | c :: rest =>
      if c = '\n' then none
      else
        let name := acc ++ [c]
        if rest.isEmpty then some (name, none)
        else
          match qualSuffix rest with
          | some t => some (name, some t)
          | none => splitNameSpec name rest

/-- Remove one final newline, if the input ends with one: the dollar
anchors of the parsing regex make matching a filename with a trailing
newline the same as end-anchored matching without it. -/
def dropFinalNl (s : List Char) : List Char :=
  if s.getLast? = some '\n' then s.dropLast else s

/-- A parsed file: SpecializedItem's fields after __init__ ran
_split_specialization.  destination and specialization are None when the
parsing regex did not match the filename. -/
structure SpecializedItem where
  directory : String
  filename : String
  destination : Option String
  specialization : Option String
deriving DecidableEq, Repr

/-- SpecializedItem(directory, filename): parse the filename. -/
def SpecializedItem.make (directory filename : String) : SpecializedItem :=
  match splitNameSpec [] (dropFinalNl filename.toList) with
  | some (n, sp) =>
      ⟨directory, filename, some (String.mk n), sp.map String.mk⟩
  | none => ⟨directory, filename, none, none⟩

/-- Python truthiness of the destination field: present and non-empty. -/
def destTruthy (it : SpecializedItem) : Bool :=
  match it.destination with
  | some d => d != ""
  | none => false

/-- SpecializedItem.is_valid: true outright for a truthy destination with no
specialization; otherwise the specialization is matched against the
formatted pattern.  When the specialization is None there, re.match is
called on None and raises TypeError (exn). -/
def is_valid (user host : String) (it : SpecializedItem) : PyVal Bool :=
  if destTruthy it ∧ it.specialization = none then .ok true
  else
    match it.specialization with
    | none => .exn
    | some sp =>
        match validPattern user host with
        | none => .undef
        | some r => .ok (reFullMatch r sp.toList).isSome

/-- SpecializedItem.get_priority: 0 for a falsy specialization (None or the
empty string); otherwise -1 when the formatted pattern does not match, and
the count of non-empty capture groups when it does. -/
def get_priority (user host : String) (it : SpecializedItem) : PyVal Int :=
  match it.specialization with
  | none => .ok 0
  | some sp =>
      if sp = "" then .ok 0
      else
        match prioPattern user host with
        | none => .undef
        | some r =>
            match reFullMatch r sp.toList with
            | none => .ok (-1)
            | some caps => .ok (countTruthy caps)

/-! ## POSIX path computations

os.path.join, os.path.relpath and os.path.abspath, modeled for the
absolute inputs the script feeds them. -/

/-- Split a character list on slashes (the separators themselves dropped,
empty runs kept, as str.split produces). -/
def splitSlash : List Char → List (List Char)
  | [] => [[]]
  | c :: rest =>
      let r := splitSlash rest
      if c = '/' then [] :: r
      else
        match r with
        | s :: tail => (c :: s) :: tail
        | [] => [[c]]

/-- Whether a path begins with a slash. -/
def startsWithSlash (p : String) : Bool :=
  match p.toList with
  | '/' :: _ => true
  | _ => false

/-- Whether a path ends with a slash. -/
def endsWithSlash (p : String) : Bool :=
  p.toList.getLast? = some '/'

/-- Join path segments with slash separators. -/
def interSlash : List String → String
  | [] => ""
  | [s] => s
  | s :: rest => s ++ "/" ++ interSlash rest

/-- Split a path on slashes, dropping empty segments. -/
def splitSegs (p : String) : List String :=
  ((splitSlash p.toList).filter (fun s => !s.isEmpty)).map String.mk

/-- Normalize segments of an absolute path: drop current-directory
segments and let a parent segment cancel the segment before it (the parent
of the root is the root). -/
def normSegs (l : List String) : List String :=
  l.foldl
    (fun acc seg =>
      if seg = "." then acc
      else if seg = ".." then acc.dropLast
      else acc ++ [seg])
    []

/-- os.path.join of two components: an absolute second component discards
the first. -/
def joinP (a b : String) : String :=
  if startsWithSlash b then b
  else if a = "" ∨ endsWithSlash a then a ++ b
  else a ++ "/" ++ b

/-- os.path.abspath, modeled for absolute inputs (main makes both roots
absolute, so every path the script normalizes is absolute already); a
relative input would consult the process working directory, which the
embedding does not model. -/
def abspath (p : String) : String :=
  if startsWithSlash p then "/" ++ interSlash (normSegs (splitSegs p))
  else p

/-- Length of the common prefix of two segment lists. -/
def commonLen : List String → List String → Nat
  | a :: as, b :: bs => if a = b then commonLen as bs + 1 else 0
  | _, _ => 0

/-- os.path.relpath for absolute inputs: strip the common prefix, climb out
of what remains of the start with parent segments, then descend into what
remains of the path. -/
def relpath (p start : String) : String :=
  let ps := normSegs (splitSegs p)
  let ss := normSegs (splitSegs start)
  let i := commonLen ps ss
  let parts := List.replicate (ss.length - i) ".." ++ ps.drop i
  if parts.isEmpty then "." else interSlash parts

/-! ## SymlinkContainer -/

/-- One value of the destination map: the chosen source path and its
priority. -/
structure Entry where
  source : String
  priority : Int
deriving DecidableEq, Repr

/-- SymlinkContainer: the two roots and the destination map, an
insertion-ordered association list mirroring a Python dict. -/
structure Container where
  srcRoot : String
  dstRoot : String
  map : List (String × Entry)
deriving DecidableEq, Repr

/-- SymlinkContainer(source_root, destination_root): empty map. -/
def Container.init (srcRoot dstRoot : String) : Container :=
  ⟨srcRoot, dstRoot, []⟩

/-- Dict lookup on the association list. -/
def lookupD (k : String) : List (String × Entry) → Option Entry
  | [] => none
  | (k', e) :: rest => if k' = k then some e else lookupD k rest

/-- Dict assignment: overwrite in place if the key is present, else append. -/
def setKey (m : List (String × Entry)) (k : String) (e : Entry) : List (String × Entry) :=
  match m with
  | [] => [(k, e)]
  | (k', e') :: rest => if k' = k then (k, e) :: rest else (k', e') :: setKey rest k e

/-- The replacement test of SymlinkContainer.add: the destination is not in
the map yet, or the stored priority is strictly below the new one. -/
def shouldReplace (cur : Option Entry) (p : Int) : Bool :=
  match cur with
  | none => true
  | some e => decide (e.priority < p)

/-- The destination path add computes: the destination root extended by the
directory's path relative to the source root and the parsed base name,
normalized. -/
def destPathR (srcRoot dstRoot directory baseName : String) : String :=
  abspath (joinP (joinP dstRoot (relpath directory srcRoot)) baseName)

/-- The source path add computes: join of the source root, the directory
and the raw filename. -/
def srcPathR (srcRoot directory filename : String) : String :=
  joinP (joinP srcRoot directory) filename

/-- SymlinkContainer.add.  None models the exceptions the method can raise:
joining a None destination (TypeError) or a get_priority call outside the
ok case. -/
def Container.add (user host : String) (c : Container) (it : SpecializedItem) :
    Option Container :=
  match it.destination with
  | none => none
  | some d =>
      match get_priority user host it with
      | .ok p =>
          let dst := destPathR c.srcRoot c.dstRoot it.directory d
          let newMap :=
            if shouldReplace (lookupD dst c.map) p then
              setKey c.map dst ⟨srcPathR c.srcRoot it.directory it.filename, p⟩
            else c.map
          some { c with map := newMap }
      | _ => none

/-- Feed a list of items to add, stopping at the first exception. -/
def addAll (user host : String) (c : Container) : List SpecializedItem → Option Container
  | [] => some c
  | it :: rest =>
      match c.add user host it with
      | some c' => addAll user host c' rest
      | none => none

/-- The per-file loop of main over (root, name) pairs: build the item, skip
it when is_valid is false or the ignore predicate matches the filename,
otherwise add it; an exception anywhere stops the walk. -/
def processFiles (user host : String) (ignored : String → Bool) (c : Container) :
    List (String × String) → Option Container
  | [] => some c
  | (root, name) :: rest =>
      let it := SpecializedItem.make root name
      match is_valid user host it with
      | .ok v =>
          if !v || ignored it.filename then processFiles user host ignored c rest
          else
            match c.add user host it with
            | some c' => processFiles user host ignored c' rest
            | none => none
      | _ => none

/-! ## Specification-side functions used to state the invariants -/

/-- Whether a modeled computation produced a value. -/
def PyVal.isOk {α : Type} : PyVal α → Bool
  | .ok _ => true
  | _ => false

/-- Strip a literal character sequence from the front of the input. -/
def dropPre : List Char → List Char → Option (List Char)
  | [], s => some s
  | _ :: _, [] => none
  | c :: w, x :: s => if x = c then dropPre w s else none

/-- An item on which add cannot raise: a parsed destination and a priority
computation that yields a value. -/
def addOk (user host : String) (it : SpecializedItem) : Prop :=
  it.destination.isSome = true ∧ (get_priority user host it).isOk = true

/-- The per-destination state transition add performs, abstracted from the
map: keep the incumbent unless the new entry should replace it. -/
def entryStep (cur : Option Entry) (e : Entry) : Option Entry :=
  if shouldReplace cur e.priority then some e else cur

/-- The entry an item would contribute to destination D, if any. -/
def candEntry (user host srcRoot dstRoot D : String) (it : SpecializedItem) :
    Option Entry :=
  match it.destination, get_priority user host it with
  | some d, .ok p =>
      if destPathR srcRoot dstRoot it.directory d = D
      then some ⟨srcPathR srcRoot it.directory it.filename, p⟩
      else none
  | _, _ => none

/-- All entries a list of items contributes to destination D, in order. -/
def cands (user host srcRoot dstRoot D : String) (l : List SpecializedItem) :
    List Entry :=
  l.filterMap (candEntry user host srcRoot dstRoot D)

/-- Maximum of a list of integers. -/
def listMax : List Int → Option Int
  | [] => none
  | p :: ps => some (match listMax ps with | none => p | some m => max p m)

/-- The first entry of the list whose priority attains the maximum. -/
def candMaxFirst (l : List Entry) : Option Entry :=
  match listMax (l.map Entry.priority) with
  | none => none
  | some m => l.find? (fun e => decide (e.priority = m))

/-! ## Lemmas about the regex engine -/

theorem dropPre_append (w t : List Char) : dropPre w (w ++ t) = some t := by
  induction w with
  | nil => rfl
  | cons c w ih => simp [dropPre, ih]

theorem dropPre_eq_some {w s t : List Char} : dropPre w s = some t ↔ s = w ++ t := by
  induction w generalizing s with
  | nil => simp [dropPre]
  | cons c w ih =>
    cases s with
    | nil => simp [dropPre]
    | cons x s =>
      by_cases hx : x = c
      · subst hx
        simp [dropPre, ih]
      · simp [dropPre, hx, Ne.symm hx]

theorem runs_lit (w s : List Char) (caps : Caps) :
    (lit w).runs s caps =
      match dropPre w s with
      | some t => [(caps, t)]
      | none => [] := by
  induction w generalizing s with
  | nil => rfl
  | cons c w ih =>
    cases s with
    | nil => rfl
    | cons x s =>
      by_cases hx : x = c
      · subst hx
        simp [lit, Re.runs, dropPre, ih]
      · simp [lit, Re.runs, dropPre, hx]

theorem rests_lit (w s : List Char) :
    (lit w).rests s =
      match dropPre w s with
      | some t => [t]
      | none => [] := by
  induction w generalizing s with
  | nil => rfl
  | cons c w ih =>
    cases s with
    | nil => rfl
    | cons x s =>
      by_cases hx : x = c
      · subst hx
        simp [lit, Re.rests, dropPre, ih]
      · simp [lit, Re.rests, dropPre, hx]

theorem rests_lit_append (w t : List Char) : (lit w).rests (w ++ t) = [t] := by
  rw [rests_lit, dropPre_append]

theorem dropPre_self (w : List Char) : dropPre w w = some [] := by
  have h2 := dropPre_append w []
  rwa [List.append_nil] at h2

theorem nil_mem_rests_lit {w s : List Char} : [] ∈ (lit w).rests s ↔ s = w := by
  rw [rests_lit]
  constructor
  · intro hmem
    rcases hd : dropPre w s with _ | t
    · rw [hd] at hmem
      cases hmem
    · rw [hd] at hmem
      simp at hmem
      subst hmem
      have h3 := dropPre_eq_some.mp hd
      simpa using h3
  · intro hs
    subst hs
    rw [dropPre_self]
    simp

theorem starRunsAux_snd (f : List Char → Caps → List (Caps × List Char))
    (g : List Char → List (List Char))
    (hfg : ∀ s caps, (f s caps).map Prod.snd = g s) :
    ∀ (fuel : Nat) (s : List Char) (caps : Caps),
      (starRunsAux f fuel s caps).map Prod.snd = starRestsAux g fuel s := by
  intro fuel
  induction fuel with
  | zero => intro s caps; rfl
  | succ n ih =>
    intro s caps
    show (((f s caps).flatMap (fun pr =>
        if pr.2.length < s.length then starRunsAux f n pr.2 pr.1 else [])) ++
        [(caps, s)]).map Prod.snd =
      ((g s).flatMap (fun t =>
        if t.length < s.length then starRestsAux g n t else [])) ++ [s]
    rw [List.map_append, List.map_flatMap, ← hfg s caps, List.flatMap_map]
    congr 1
    refine List.flatMap_congr ?_
    intro pr _
    by_cases hlen : pr.2.length < s.length
    · rw [if_pos hlen, if_pos hlen, ih]
    · rw [if_neg hlen, if_neg hlen]
      rfl

theorem runs_snd (r : Re) : ∀ (s : List Char) (caps : Caps),
    (r.runs s caps).map Prod.snd = r.rests s := by
  induction r with
  | eps => intro s caps; rfl
  | char c =>
    intro s caps
    cases s with
    | nil => rfl
    | cons x s => by_cases hx : x = c <;> simp [Re.runs, Re.rests, hx]
  | any =>
    intro s caps
    cases s with
    | nil => rfl
    | cons x s => by_cases hx : x = '\n' <;> simp [Re.runs, Re.rests, hx]
  | seq r₁ r₂ ih₁ ih₂ =>
    intro s caps
    simp only [Re.runs, Re.rests, List.map_flatMap, ih₂]
    rw [← ih₁ s caps, List.flatMap_map]
  | alt r₁ r₂ ih₁ ih₂ =>
    intro s caps
    simp [Re.runs, Re.rests, ih₁, ih₂]
  | opt r ih =>
    intro s caps
    simp [Re.runs, Re.rests, ih]
  | star r ih =>
    intro s caps
    exact starRunsAux_snd _ _ (fun s' caps' => ih s' caps') (s.length + 1) s caps
  | group i r ih =>
    intro s caps
    simp only [Re.runs, Re.rests, List.map_map]
    rw [← ih s caps]
    rfl

theorem atDollar_iff {t : List Char} : atDollar t = true ↔ (t = [] ∨ t = ['\n']) := by
  unfold atDollar
  rw [Bool.or_eq_true, List.isEmpty_iff, beq_iff_eq]

theorem atDollar_false_of_ne {t : List Char} (h0 : t ≠ []) (h1 : t ≠ ['\n']) :
    atDollar t = false := by
  rcases ha : atDollar t with _ | _
  · rfl
  · rcases atDollar_iff.mp ha with h2 | h2
    · exact absurd h2 h0
    · exact absurd h2 h1

theorem reFullMatch_isSome_iff {r : Re} {s : List Char} :
    (reFullMatch r s).isSome = true ↔ ([] ∈ r.rests s ∨ ['\n'] ∈ r.rests s) := by
  rw [← runs_snd r s []]
  constructor
  · intro hi
    rcases Option.isSome_iff_exists.mp hi with ⟨caps, hc⟩
    unfold reFullMatch at hc
    rcases hf : (r.runs s []).find? (fun pr => atDollar pr.2) with _ | pr
    · rw [hf] at hc
      cases hc
    · have hmem := List.mem_of_find?_eq_some hf
      have hp := List.find?_some hf
      rcases atDollar_iff.mp hp with h0 | h0
      · exact Or.inl (List.mem_map.mpr ⟨pr, hmem, h0⟩)
      · exact Or.inr (List.mem_map.mpr ⟨pr, hmem, h0⟩)
  · intro hmem
    have hex : ∃ x ∈ r.runs s [], (fun pr => atDollar pr.2) x = true := by
      rcases hmem with hm | hm <;>
      · rcases List.mem_map.mp hm with ⟨pr, hpr, hsnd⟩
        exact ⟨pr, hpr, by show atDollar pr.2 = true; rw [hsnd]; rfl⟩
    have hfs := List.find?_isSome.mpr hex
    unfold reFullMatch
    rcases hff : (r.runs s []).find? (fun pr => atDollar pr.2) with _ | pr'
    · rw [hff] at hfs
      cases hfs
    · rw [hff]
      rfl

theorem reFullMatch_eq_none_iff {r : Re} {s : List Char} :
    reFullMatch r s = none ↔ ¬ ([] ∈ r.rests s ∨ ['\n'] ∈ r.rests s) := by
  rw [← reFullMatch_isSome_iff]
  cases reFullMatch r s <;> simp

theorem rests_valid_eq_prio (U H : Re) (s : List Char) :
    (validAST U H).rests s = (prioAST U H).rests s := by
  simp [validAST, prioAST, Re.rests]

theorem mem_rests_lit {w s t : List Char} : t ∈ (lit w).rests s ↔ s = w ++ t := by
  rw [rests_lit]
  constructor
  · intro hmem
    rcases hd : dropPre w s with _ | t'
    · rw [hd] at hmem
      cases hmem
    · rw [hd] at hmem
      simp at hmem
      subst hmem
      exact dropPre_eq_some.mp hd
  · intro hs
    subst hs
    rw [dropPre_append]
    simp

theorem mem_rests_atHost {h t t' : List Char} :
    t ∈ (Re.seq (.char '@') (lit h)).rests t' ↔ t' = '@' :: (h ++ t) := by
  cases t' with
  | nil => simp [Re.rests]
  | cons c rest =>
    by_cases hc : c = '@'
    · subst hc
      simp [Re.rests, mem_rests_lit]
    · simp [Re.rests, hc]

theorem mem_rests_validAST {u h s t : List Char} :
    t ∈ (validAST (lit u) (lit h)).rests s ↔
      (s = h ++ t ∨ s = u ++ t ∨ s = u ++ '@' :: (h ++ t)) := by
  have hE : (validAST (lit u) (lit h)).rests s =
      ((lit h).rests s) ++
        ((lit u).rests s).flatMap
          (fun t₀ => ((Re.seq (.char '@') (lit h)).rests t₀) ++ [t₀]) := rfl
  rw [hE]
  simp only [List.mem_append, List.mem_flatMap, List.mem_singleton,
    mem_rests_lit, mem_rests_atHost]
  constructor
  · rintro (hs | ⟨t₀, hst, (h1 | rfl)⟩)
    · exact Or.inl hs
    · subst h1
      exact Or.inr (Or.inr hst)
    · exact Or.inr (Or.inl hst)
  · rintro (hs | hs | hs)
    · exact Or.inl hs
    · exact Or.inr ⟨t, hs, Or.inr rfl⟩
    · exact Or.inr ⟨'@' :: (h ++ t), hs, Or.inl rfl⟩

theorem compileFrag_plain {cs : List Char} (hp : ∀ c ∈ cs, plainChar c = true) :
    compileFrag cs = some (lit cs) := by
  induction cs with
  | nil => rfl
  | cons c cs ih =>
    have hc := hp c (List.mem_cons_self c cs)
    simp only [plainChar, Bool.and_eq_true, Bool.not_eq_true', bne_iff_ne] at hc
    have hcs : ∀ x ∈ cs, plainChar x = true :=
      fun x hx => hp x (List.mem_cons_of_mem _ hx)
    rw [compileFrag.eq_def]
    split
    · rename_i heq
      cases heq
    · rename_i c₁ rest heq
      rw [List.cons_eq_cons] at heq
      obtain ⟨rfl, hcs'⟩ := heq
      subst hcs'
      have hq := hcs '?' (List.mem_cons_self _ _)
      simp only [plainChar, Bool.and_eq_true, Bool.not_eq_true', bne_iff_ne] at hq
      exact absurd hq.1 (by decide)
    · rename_i c₁ rest heq
      rw [List.cons_eq_cons] at heq
      obtain ⟨rfl, hcs'⟩ := heq
      subst hcs'
      have hq := hcs '*' (List.mem_cons_self _ _)
      simp only [plainChar, Bool.and_eq_true, Bool.not_eq_true', bne_iff_ne] at hq
      exact absurd hq.1 (by decide)
    · rename_i c₁ rest hne1 hne2 hne3 heq
      rw [List.cons_eq_cons] at heq
      obtain ⟨rfl, rfl⟩ := heq
      rw [if_neg (by rw [hc.1]; exact Bool.false_ne_true), ih hcs]
      simp [lit, hc.2]

theorem string_eq_iff_toList {s t : String} : s = t ↔ s.toList = t.toList :=
  ⟨fun h => by rw [h], fun h => String.ext h⟩

theorem toList_userhost (u h : String) :
    (u ++ "@" ++ h).toList = u.toList ++ '@' :: h.toList := by
  show (u ++ "@" ++ h).data = u.data ++ '@' :: h.data
  simp [String.data_append]

theorem toList_append_nl (s : String) : (s ++ "\n").toList = s.toList ++ ['\n'] := by
  show (s ++ "\n").data = s.data ++ ['\n']
  rw [String.data_append]

theorem toList_userhost_nl (u h : String) :
    (u ++ "@" ++ h ++ "\n").toList = u.toList ++ '@' :: (h.toList ++ ['\n']) := by
  rw [toList_append_nl, toList_userhost, List.append_assoc]
  rfl

theorem plainStr_chars {s : String} (hs : plainStr s = true) :
    ∀ c ∈ s.toList, plainChar c = true :=
  List.all_eq_true.mp hs

theorem validPattern_plain {u h : String} (hu : plainStr u = true) (hh : plainStr h = true) :
    validPattern u h = some (validAST (lit u.toList) (lit h.toList)) := by
  unfold validPattern
  rw [compileFrag_plain (plainStr_chars hu), compileFrag_plain (plainStr_chars hh)]

theorem prioPattern_plain {u h : String} (hu : plainStr u = true) (hh : plainStr h = true) :
    prioPattern u h = some (prioAST (lit u.toList) (lit h.toList)) := by
  unfold prioPattern
  rw [compileFrag_plain (plainStr_chars hu), compileFrag_plain (plainStr_chars hh)]

theorem is_valid_of_spec {u h : String} (hu : plainStr u = true) (hh : plainStr h = true)
    {it : SpecializedItem} {sp : String} (hsp : it.specialization = some sp) :
    is_valid u h it = .ok (decide (sp = h ∨ sp = u ∨ sp = u ++ "@" ++ h ∨
      sp = h ++ "\n" ∨ sp = u ++ "\n" ∨ sp = u ++ "@" ++ h ++ "\n")) := by
  unfold is_valid
  rw [if_neg (by simp [hsp]), hsp, validPattern_plain hu hh]
  show PyVal.ok (reFullMatch (validAST (lit u.toList) (lit h.toList)) sp.toList).isSome
      = PyVal.ok (decide (sp = h ∨ sp = u ∨ sp = u ++ "@" ++ h ∨
        sp = h ++ "\n" ∨ sp = u ++ "\n" ∨ sp = u ++ "@" ++ h ++ "\n"))
  congr 1
  rw [Bool.eq_iff_iff, decide_eq_true_eq, reFullMatch_isSome_iff,
    mem_rests_validAST, mem_rests_validAST]
  rw [string_eq_iff_toList (s := sp) (t := h), string_eq_iff_toList (s := sp) (t := u),
    string_eq_iff_toList (s := sp) (t := u ++ "@" ++ h),
    string_eq_iff_toList (s := sp) (t := h ++ "\n"),
    string_eq_iff_toList (s := sp) (t := u ++ "\n"),
    string_eq_iff_toList (s := sp) (t := u ++ "@" ++ h ++ "\n"),
    toList_userhost, toList_append_nl, toList_append_nl, toList_userhost_nl]
  simp only [List.append_nil]
  tauto

theorem get_priority_some {u h : String} {it : SpecializedItem} {sp : String}
    (hsp : it.specialization = some sp) (hne : sp ≠ "") :
    get_priority u h it =
      match prioPattern u h with
      | none => .undef
      | some r =>
          match reFullMatch r sp.toList with
          | none => .ok (-1)
          | some caps => .ok (countTruthy caps) := by
  unfold get_priority
  rw [hsp]
  exact if_neg hne

theorem prio_absent {u h : String} {it : SpecializedItem}
    (hsp : it.specialization = none) : get_priority u h it = .ok 0 := by
  unfold get_priority
  rw [hsp]

theorem prio_empty {u h : String} {it : SpecializedItem}
    (hsp : it.specialization = some "") : get_priority u h it = .ok 0 := by
  unfold get_priority
  rw [hsp]
  simp

theorem prio_nomatch {u h : String} (hu : plainStr u = true) (hh : plainStr h = true)
    {it : SpecializedItem} {sp : String} (hsp : it.specialization = some sp)
    (hne : sp ≠ "") (h1 : sp ≠ h) (h2 : sp ≠ u) (h3 : sp ≠ u ++ "@" ++ h)
    (h4 : sp ≠ h ++ "\n") (h5 : sp ≠ u ++ "\n") (h6 : sp ≠ u ++ "@" ++ h ++ "\n") :
    get_priority u h it = .ok (-1) := by
  rw [get_priority_some hsp hne, prioPattern_plain hu hh]
  have hnone : reFullMatch (prioAST (lit u.toList) (lit h.toList)) sp.toList = none := by
    rw [reFullMatch_eq_none_iff, ← rests_valid_eq_prio,
      mem_rests_validAST, mem_rests_validAST]
    simp only [List.append_nil]
    rintro ((hl | hl | hl) | (hl | hl | hl))
    · exact h1 (String.ext hl)
    · exact h2 (String.ext hl)
    · exact h3 (String.ext (hl.trans (toList_userhost u h).symm))
    · exact h4 (String.ext (hl.trans (toList_append_nl h).symm))
    · exact h5 (String.ext (hl.trans (toList_append_nl u).symm))
    · exact h6 (String.ext (hl.trans (toList_userhost_nl u h).symm))
  show (match reFullMatch (prioAST (lit u.toList) (lit h.toList)) sp.toList with
        | none => (PyVal.ok (-1) : PyVal Int)
        | some caps => .ok (countTruthy caps)) = .ok (-1)
  rw [hnone]

theorem string_ne_nil {s : String} (h : s ≠ "") : s.toList ≠ [] :=
  fun hl => h (String.ext hl)

theorem get_priority_plain {u h : String} (hu : plainStr u = true) (hh : plainStr h = true)
    {it : SpecializedItem} {sp : String}
    (hsp : it.specialization = some sp) (hne : sp ≠ "") :
    get_priority u h it =
      match reFullMatch (prioAST (lit u.toList) (lit h.toList)) sp.toList with
      | none => .ok (-1)
      | some caps => .ok (countTruthy caps) := by
  rw [get_priority_some hsp hne, prioPattern_plain hu hh]

theorem take_sub_append (w t : List Char) :
    (w ++ t).take ((w ++ t).length - t.length) = w := by
  rw [List.length_append, Nat.add_sub_cancel, List.take_left]

theorem take_sub_append2 (a w t : List Char) :
    (a ++ (w ++ t)).take ((a ++ (w ++ t)).length - t.length) = a ++ w := by
  rw [← List.append_assoc]
  exact take_sub_append (a ++ w) t

theorem take_cons_append (a : Char) (w t : List Char) :
    List.take (w.length + t.length + 1 - t.length) (a :: (w ++ t)) = a :: w := by
  have h1 : a :: (w ++ t) = (a :: w) ++ t := rfl
  rw [h1]
  refine List.take_left' ?_
  simp only [List.length_cons]
  omega

theorem take_append_cons_append (u : List Char) (a : Char) (w t : List Char) :
    List.take (u.length + (w.length + t.length + 1) - t.length) (u ++ a :: (w ++ t))
      = u ++ a :: w := by
  have h1 : u ++ a :: (w ++ t) = (u ++ a :: w) ++ t := by simp
  rw [h1]
  refine List.take_left' ?_
  simp only [List.length_append, List.length_cons]
  omega

theorem runs_atHost (h t : List Char) (caps : Caps) :
    (Re.seq (.char '@') (lit h)).runs t caps =
      match dropPre ('@' :: h) t with
      | some t₂ => [(caps, t₂)]
      | none => [] := by
  cases t with
  | nil => rfl
  | cons c t' =>
    by_cases hc : c = '@'
    · subst hc
      have hstep : dropPre ('@' :: h) ('@' :: t') = dropPre h t' := by
        simp [dropPre]
      rw [hstep]
      have hchar : (Re.char '@').runs ('@' :: t') caps = [(caps, t')] := by
        simp [Re.runs]
      show ((Re.char '@').runs ('@' :: t') caps).flatMap
          (fun pr => (lit h).runs pr.2 pr.1) =
        match dropPre h t' with
        | some t₂ => [(caps, t₂)]
        | none => []
      rw [hchar]
      simp only [List.flatMap_cons, List.flatMap_nil, List.append_nil]
      rw [runs_lit]
    · have hstep : dropPre ('@' :: h) (c :: t') = none := by
        simp [dropPre, hc]
      rw [hstep]
      have hchar : (Re.char '@').runs (c :: t') caps = [] := by
        simp [Re.runs, hc]
      show ((Re.char '@').runs (c :: t') caps).flatMap
          (fun pr => (lit h).runs pr.2 pr.1) = []
      rw [hchar]
      rfl

theorem runs_prioAST (u h s : List Char) :
    (prioAST (lit u) (lit h)).runs s [] =
      (match dropPre h s with
       | some t => [([(1, h)], t)]
       | none => []) ++
      (match dropPre u s with
       | none => []
       | some t =>
           (match dropPre ('@' :: h) t with
            | some t₂ => [([(1, u ++ '@' :: h), (2, u ++ '@' :: h), (3, '@' :: h)], t₂)]
            | none => []) ++
           [([(1, u), (2, u)], t)]) := by
  have hE : (prioAST (lit u) (lit h)).runs s [] =
      (((lit h).runs s [] ++
        ((((lit u).runs s []).flatMap (fun pr =>
            (((Re.seq (.char '@') (lit h)).runs pr.2 pr.1).map
              (fun q => (capSet 3 (pr.2.take (pr.2.length - q.2.length)) q.1, q.2))) ++
            [(pr.1, pr.2)])).map
          (fun pr => (capSet 2 (s.take (s.length - pr.2.length)) pr.1, pr.2)))).map
        (fun pr => (capSet 1 (s.take (s.length - pr.2.length)) pr.1, pr.2))) := rfl
  rw [hE, runs_lit, runs_lit]
  rcases hdu : dropPre u s with _ | t
  · rcases hdh : dropPre h s with _ | t₁
    · rfl
    · have hs1 := dropPre_eq_some.mp hdh
      subst hs1
      simp [capSet, take_sub_append]
  · have hs2 := dropPre_eq_some.mp hdu
    subst hs2
    simp only [List.flatMap_cons, List.flatMap_nil, List.append_nil]
    rw [runs_atHost]
    rcases hdat : dropPre ('@' :: h) t with _ | t₂
    · rcases hdh : dropPre h (u ++ t) with _ | t₁
      · simp [capSet, take_sub_append]
      · have heq := dropPre_eq_some.mp hdh
        have hlen := congrArg List.length heq
        simp only [List.length_append] at hlen
        have hc1 : List.take (u.length + t.length - t₁.length) (u ++ t) = h := by
          rw [heq]
          refine List.take_left' ?_
          omega
        simp [capSet, take_sub_append, hc1]
    · have hs3 := dropPre_eq_some.mp hdat
      subst hs3
      rcases hdh : dropPre h (u ++ ('@' :: h ++ t₂)) with _ | t₁
      · simp [capSet, take_sub_append, take_cons_append, take_append_cons_append]
      · have heq := dropPre_eq_some.mp hdh
        have heq2 : u ++ '@' :: (h ++ t₂) = h ++ t₁ := by
          rw [← heq]
          simp
        have hlen := congrArg List.length heq2
        simp only [List.length_append, List.length_cons] at hlen
        have hc1 : List.take (u.length + (h.length + t₂.length + 1) - t₁.length)
            (u ++ '@' :: (h ++ t₂)) = h := by
          rw [heq2]
          refine List.take_left' ?_
          omega
        simp [capSet, take_sub_append, take_cons_append, take_append_cons_append, hc1]

theorem atDollar_nil : atDollar [] = true := rfl

theorem atDollar_nl : atDollar ['\n'] = true := rfl

theorem isEmpty_append_cons {α : Type} (l : List α) (a : α) (t : List α) :
    (l ++ a :: t).isEmpty = false := by
  cases l <;> rfl

theorem prio_spec_host {u h : String} (hu : plainStr u = true) (hh : plainStr h = true)
    {it : SpecializedItem} (hsp : it.specialization = some h) (hne : h ≠ "") :
    get_priority u h it = .ok 1 := by
  rw [get_priority_plain hu hh hsp hne]
  obtain ⟨c, t, hct⟩ := List.exists_cons_of_ne_nil (string_ne_nil hne)
  have hfull : reFullMatch (prioAST (lit u.toList) (lit h.toList)) h.toList
      = some [(1, h.toList)] := by
    unfold reFullMatch
    rw [runs_prioAST, dropPre_self]
    simp [List.find?_cons, atDollar_nil]
  rw [hfull]
  have hct' : h.data = c :: t := hct
  simp [countTruthy, hct']

theorem prio_spec_host_nl {u h : String} (hu : plainStr u = true) (hh : plainStr h = true)
    {it : SpecializedItem} (hsp : it.specialization = some (h ++ "\n")) (hne : h ≠ "") :
    get_priority u h it = .ok 1 := by
  have hne2 : h ++ "\n" ≠ "" := by
    intro h0
    have h1 : ([] : List Char) = h.toList ++ ['\n'] :=
      (congrArg String.toList h0.symm).trans (toList_append_nl h)
    exact absurd h1.symm (by simp)
  rw [get_priority_plain hu hh hsp hne2, toList_append_nl]
  have hfull : reFullMatch (prioAST (lit u.toList) (lit h.toList)) (h.toList ++ ['\n'])
      = some [(1, h.toList)] := by
    unfold reFullMatch
    rw [runs_prioAST, dropPre_append]
    simp [List.find?_cons, atDollar_nl]
  rw [hfull]
  obtain ⟨c, t, hct⟩ := List.exists_cons_of_ne_nil (string_ne_nil hne)
  have hct' : h.data = c :: t := hct
  simp [countTruthy, hct']

theorem prio_spec_user {u h : String} (hu : plainStr u = true) (hh : plainStr h = true)
    {it : SpecializedItem} (hsp : it.specialization = some u) (hne : u ≠ "")
    (hneq : u ≠ h) (hneq2 : u ≠ h ++ "\n") :
    get_priority u h it = .ok 2 := by
  rw [get_priority_plain hu hh hsp hne]
  obtain ⟨c, t0, hct⟩ := List.exists_cons_of_ne_nil (string_ne_nil hne)
  have hfull : reFullMatch (prioAST (lit u.toList) (lit h.toList)) u.toList
      = some [(1, u.toList), (2, u.toList)] := by
    unfold reFullMatch
    rw [runs_prioAST, dropPre_self]
    rcases hdh : dropPre h.toList u.toList with _ | t₁
    · simp [List.find?_cons, atDollar_nil, dropPre]
    · have hfalse : atDollar t₁ = false := by
        refine atDollar_false_of_ne ?_ ?_
        · intro h0
          subst h0
          refine hneq (String.ext ?_)
          simpa using dropPre_eq_some.mp hdh
        · intro h0
          subst h0
          have h2 := dropPre_eq_some.mp hdh
          exact hneq2 (String.ext (h2.trans (toList_append_nl h).symm))
      simp [List.find?_cons, atDollar_nil, dropPre, hfalse]
  rw [hfull]
  have hct' : u.data = c :: t0 := hct
  simp [countTruthy, hct']

theorem prio_spec_user_nl {u h : String} (hu : plainStr u = true) (hh : plainStr h = true)
    {it : SpecializedItem} (hsp : it.specialization = some (u ++ "\n")) (hne : u ≠ "")
    (hneq : u ≠ h) (hneq2 : h ≠ u ++ "\n") :
    get_priority u h it = .ok 2 := by
  have hne2 : u ++ "\n" ≠ "" := by
    intro h0
    have h1 : ([] : List Char) = u.toList ++ ['\n'] :=
      (congrArg String.toList h0.symm).trans (toList_append_nl u)
    exact absurd h1.symm (by simp)
  rw [get_priority_plain hu hh hsp hne2, toList_append_nl]
  have hfull : reFullMatch (prioAST (lit u.toList) (lit h.toList)) (u.toList ++ ['\n'])
      = some [(1, u.toList), (2, u.toList)] := by
    unfold reFullMatch
    rw [runs_prioAST, dropPre_append]
    rcases hdh : dropPre h.toList (u.toList ++ ['\n']) with _ | t₁
    · simp [List.find?_cons, atDollar_nl, dropPre]
    · have hfalse : atDollar t₁ = false := by
        refine atDollar_false_of_ne ?_ ?_
        · intro h0
          subst h0
          have h2 := dropPre_eq_some.mp hdh
          rw [List.append_nil] at h2
          exact hneq2 (String.ext (((toList_append_nl u).trans h2).symm))
        · intro h0
          subst h0
          have h2 := dropPre_eq_some.mp hdh
          have h3 : u.toList = h.toList := List.append_cancel_right h2
          exact hneq (String.ext h3)
      simp [List.find?_cons, atDollar_nl, dropPre, hfalse]
  rw [hfull]
  obtain ⟨c, t0, hct⟩ := List.exists_cons_of_ne_nil (string_ne_nil hne)
  have hct' : u.data = c :: t0 := hct
  simp [countTruthy, hct']

theorem prio_spec_userhost {u h : String} (hu : plainStr u = true) (hh : plainStr h = true)
    {it : SpecializedItem} (hsp : it.specialization = some (u ++ "@" ++ h))
    (hune : u ≠ "") :
    get_priority u h it = .ok 3 := by
  have hne : u ++ "@" ++ h ≠ "" := by
    intro h0
    have h1 : (u ++ "@" ++ h).toList = ([] : List Char) := by rw [h0]; rfl
    rw [toList_userhost] at h1
    simp at h1
  rw [get_priority_plain hu hh hsp hne, toList_userhost]
  have hfull : reFullMatch (prioAST (lit u.toList) (lit h.toList))
      (u.toList ++ '@' :: h.toList)
      = some [(1, u.toList ++ '@' :: h.toList), (2, u.toList ++ '@' :: h.toList),
              (3, '@' :: h.toList)] := by
    unfold reFullMatch
    rw [runs_prioAST]
    simp only [dropPre_append, dropPre_self]
    rcases hdh : dropPre h.toList (u.toList ++ '@' :: h.toList) with _ | t₁
    · simp [List.find?_cons, atDollar_nil]
    · have hlen : t₁.length = u.toList.length + 1 := by
        have h2 := dropPre_eq_some.mp hdh
        have h3 := congrArg List.length h2
        simp only [List.length_append, List.length_cons] at h3
        omega
      have hfalse : atDollar t₁ = false := by
        refine atDollar_false_of_ne ?_ ?_
        · intro h0
          rw [h0] at hlen
          simp only [List.length_nil] at hlen
          omega
        · intro h0
          rw [h0] at hlen
          simp only [List.length_cons, List.length_nil] at hlen
          have h4 : u.toList = [] := List.length_eq_zero.mp (by omega)
          exact hune (String.ext h4)
      simp [List.find?_cons, atDollar_nil, hfalse]
  rw [hfull]
  simp [countTruthy, isEmpty_append_cons]

theorem prio_spec_userhost_nl {u h : String} (hu : plainStr u = true)
    (hh : plainStr h = true) {it : SpecializedItem}
    (hsp : it.specialization = some (u ++ "@" ++ h ++ "\n")) :
    get_priority u h it = .ok 3 := by
  have hne : u ++ "@" ++ h ++ "\n" ≠ "" := by
    intro h0
    have h1 : ([] : List Char) = u.toList ++ '@' :: (h.toList ++ ['\n']) :=
      (congrArg String.toList h0.symm).trans (toList_userhost_nl u h)
    exact absurd h1.symm (by simp)
  rw [get_priority_plain hu hh hsp hne, toList_userhost_nl]
  have hfull : reFullMatch (prioAST (lit u.toList) (lit h.toList))
      (u.toList ++ '@' :: (h.toList ++ ['\n']))
      = some [(1, u.toList ++ '@' :: h.toList), (2, u.toList ++ '@' :: h.toList),
              (3, '@' :: h.toList)] := by
    unfold reFullMatch
    rw [runs_prioAST]
    have hstep : dropPre ('@' :: h.toList) ('@' :: (h.toList ++ ['\n'])) = some ['\n'] := by
      show (if '@' = '@' then dropPre h.toList (h.toList ++ ['\n']) else none) = some ['\n']
      rw [if_pos rfl, dropPre_append]
    simp only [dropPre_append, hstep]
    rcases hdh : dropPre h.toList (u.toList ++ '@' :: (h.toList ++ ['\n'])) with _ | t₁
    · simp [List.find?_cons, atDollar_nl]
    · have hlen : t₁.length = u.toList.length + 2 := by
        have h2 := dropPre_eq_some.mp hdh
        have h3 := congrArg List.length h2
        simp only [List.length_append, List.length_cons, List.length_nil] at h3
        omega
      have hfalse : atDollar t₁ = false := by
        refine atDollar_false_of_ne ?_ ?_
        · intro h0
          rw [h0] at hlen
          simp only [List.length_nil] at hlen
          omega
        · intro h0
          rw [h0] at hlen
          simp only [List.length_cons, List.length_nil] at hlen
          omega
      simp [List.find?_cons, atDollar_nl, hfalse]
  rw [hfull]
  simp [countTruthy, isEmpty_append_cons]

/-! ## Lemmas about the destination map -/

theorem lookupD_setKey_self (m : List (String × Entry)) (k : String) (e : Entry) :
    lookupD k (setKey m k e) = some e := by
  induction m with
  | nil => simp [setKey, lookupD]
  | cons p m ih =>
    obtain ⟨k', e'⟩ := p
    by_cases hk : k' = k
    · subst hk
      simp [setKey, lookupD]
    · simp [setKey, lookupD, hk, ih]

theorem lookupD_setKey_ne (m : List (String × Entry)) {k k' : String} (e : Entry)
    (hne : k' ≠ k) : lookupD k (setKey m k' e) = lookupD k m := by
  induction m with
  | nil => simp [setKey, lookupD, hne]
  | cons p m ih =>
    obtain ⟨k₀, e₀⟩ := p
    by_cases hk : k₀ = k'
    · subst hk
      simp [setKey, lookupD, hne]
    · simp only [setKey, if_neg hk]
      by_cases hk2 : k₀ = k
      · simp [lookupD, hk2]
      · simp [lookupD, hk2, ih]

theorem lookupD_eq_none_iff {m : List (String × Entry)} {k : String} :
    lookupD k m = none ↔ k ∉ m.map Prod.fst := by
  induction m with
  | nil => simp [lookupD]
  | cons p m ih =>
    obtain ⟨k', e'⟩ := p
    by_cases hk : k' = k
    · subst hk
      simp [lookupD]
    · simp [lookupD, hk, ih, Ne.symm hk]

theorem keys_setKey (m : List (String × Entry)) (k : String) (e : Entry) :
    (setKey m k e).map Prod.fst =
      if lookupD k m = none then m.map Prod.fst ++ [k] else m.map Prod.fst := by
  induction m with
  | nil => simp [setKey, lookupD]
  | cons p m ih =>
    obtain ⟨k', e'⟩ := p
    by_cases hk : k' = k
    · subst hk
      simp [setKey, lookupD]
    · simp only [setKey, if_neg hk, List.map_cons, lookupD, ih]
      by_cases hn : lookupD k m = none <;> simp [hn, hk]

theorem nodup_setKey {m : List (String × Entry)} (k : String) (e : Entry)
    (hnd : (m.map Prod.fst).Nodup) : ((setKey m k e).map Prod.fst).Nodup := by
  rw [keys_setKey]
  by_cases hn : lookupD k m = none
  · rw [if_pos hn]
    rw [List.nodup_append]
    refine ⟨hnd, List.nodup_singleton k, ?_⟩
    intro x hx hxk
    simp at hxk
    subst hxk
    exact lookupD_eq_none_iff.mp hn hx
  · rw [if_neg hn]
    exact hnd

theorem add_eq {u h : String} {c : Container} {it : SpecializedItem} {d : String}
    (hdst : it.destination = some d) {p : Int} (hp : get_priority u h it = .ok p) :
    c.add u h it = some (Container.mk c.srcRoot c.dstRoot
      (if shouldReplace (lookupD (destPathR c.srcRoot c.dstRoot it.directory d) c.map) p
       then
         setKey c.map (destPathR c.srcRoot c.dstRoot it.directory d)
           (Entry.mk (srcPathR c.srcRoot it.directory it.filename) p)
       else c.map)) := by
  unfold Container.add
  rw [hdst, hp]

theorem candEntry_eq {u h sR dR D : String} {it : SpecializedItem} {d : String}
    (hdst : it.destination = some d) {p : Int} (hp : get_priority u h it = .ok p) :
    candEntry u h sR dR D it =
      if destPathR sR dR it.directory d = D
      then some (Entry.mk (srcPathR sR it.directory it.filename) p)
      else none := by
  unfold candEntry
  rw [hdst, hp]

theorem lookupD_add {u h : String} {c c' : Container} {it : SpecializedItem}
    (hadd : c.add u h it = some c') (D : String) :
    c'.srcRoot = c.srcRoot ∧ c'.dstRoot = c.dstRoot ∧
    lookupD D c'.map =
      match candEntry u h c.srcRoot c.dstRoot D it with
      | some e => entryStep (lookupD D c.map) e
      | none => lookupD D c.map := by
  rcases hdst : it.destination with _ | d
  · rw [Container.add, hdst] at hadd
    cases hadd
  · cases hp : get_priority u h it with
    | ok p =>
      rw [add_eq hdst hp] at hadd
      injection hadd with hc'
      subst hc'
      refine ⟨rfl, rfl, ?_⟩
      rw [candEntry_eq hdst hp]
      by_cases hD : destPathR c.srcRoot c.dstRoot it.directory d = D
      · rw [if_pos hD, hD]
        show lookupD D
            (if shouldReplace (lookupD D c.map) p
             then setKey c.map D (Entry.mk (srcPathR c.srcRoot it.directory it.filename) p)
             else c.map) =
          entryStep (lookupD D c.map)
            (Entry.mk (srcPathR c.srcRoot it.directory it.filename) p)
        unfold entryStep
        by_cases hrep : shouldReplace (lookupD D c.map) p
        · rw [if_pos hrep, if_pos hrep]
          exact lookupD_setKey_self c.map D _
        · rw [if_neg hrep, if_neg hrep]
      · rw [if_neg hD]
        show lookupD D
            (if shouldReplace (lookupD (destPathR c.srcRoot c.dstRoot it.directory d) c.map) p
             then
               setKey c.map (destPathR c.srcRoot c.dstRoot it.directory d)
                 (Entry.mk (srcPathR c.srcRoot it.directory it.filename) p)
             else c.map) =
          lookupD D c.map
        by_cases hrep :
            shouldReplace (lookupD (destPathR c.srcRoot c.dstRoot it.directory d) c.map) p
        · rw [if_pos hrep]
          exact lookupD_setKey_ne c.map _ hD
        · rw [if_neg hrep]
    | exn =>
      rw [Container.add, hdst, hp] at hadd
      cases hadd
    | undef =>
      rw [Container.add, hdst, hp] at hadd
      cases hadd

theorem addAll_lookup {u h : String} {l : List SpecializedItem} {c c' : Container}
    (hrun : addAll u h c l = some c') (D : String) :
    c'.srcRoot = c.srcRoot ∧ c'.dstRoot = c.dstRoot ∧
    lookupD D c'.map =
      (cands u h c.srcRoot c.dstRoot D l).foldl entryStep (lookupD D c.map) := by
  induction l generalizing c with
  | nil =>
    rw [addAll] at hrun
    injection hrun with h1
    subst h1
    exact ⟨rfl, rfl, rfl⟩
  | cons it l ih =>
    rw [addAll] at hrun
    rcases hadd : c.add u h it with _ | c₁
    · rw [hadd] at hrun
      cases hrun
    · rw [hadd] at hrun
      obtain ⟨hs₁, hd₁, hl₁⟩ := lookupD_add hadd D
      obtain ⟨hs, hd, hl⟩ := ih hrun
      refine ⟨hs.trans hs₁, hd.trans hd₁, ?_⟩
      rw [hl, hs₁, hd₁, hl₁]
      unfold cands
      rw [List.filterMap_cons]
      rcases hce : candEntry u h c.srcRoot c.dstRoot D it with _ | e
      · rfl
      · rw [List.foldl_cons]

theorem listMax_cons (p : Int) (ps : List Int) :
    listMax (p :: ps) =
      some (match listMax ps with | none => p | some m => max p m) := by
  rw [listMax]

theorem head_le_listMax {p : Int} {ps : List Int} {m : Int}
    (h : listMax (p :: ps) = some m) : p ≤ m := by
  rw [listMax_cons] at h
  injection h with h
  rcases hm : listMax ps with _ | m' <;> rw [hm] at h <;> subst h
  · exact le_refl p
  · exact le_max_left _ _

theorem listMax_mem {ps : List Int} {m : Int} (h : listMax ps = some m) : m ∈ ps := by
  induction ps generalizing m with
  | nil => cases h
  | cons p ps ih =>
    rw [listMax_cons] at h
    injection h with h
    rcases hm : listMax ps with _ | m' <;> rw [hm] at h
    · have h2 : p = m := h
      subst h2
      exact List.mem_cons_self _ _
    · have h2 : max p m' = m := h
      rcases le_total p m' with hle | hle
      · rw [max_eq_right hle] at h2
        subst h2
        exact List.mem_cons_of_mem _ (ih hm)
      · rw [max_eq_left hle] at h2
        subst h2
        exact List.mem_cons_self _ _

theorem le_listMax_of_mem {ps : List Int} {m q : Int} (h : listMax ps = some m)
    (hq : q ∈ ps) : q ≤ m := by
  induction ps generalizing m with
  | nil => cases hq
  | cons p ps ih =>
    rw [listMax_cons] at h
    injection h with h
    rcases hm : listMax ps with _ | m' <;> rw [hm] at h
    · have hnil : ps = [] := by
        cases ps with
        | nil => rfl
        | cons a l =>
          rw [listMax_cons] at hm
          cases hm
      subst hnil
      have h2 : p = m := h
      subst h2
      rcases List.mem_cons.mp hq with rfl | hq'
      · exact le_refl q
      · cases hq'
    · have h2 : max p m' = m := h
      subst h2
      rcases List.mem_cons.mp hq with rfl | hq'
      · exact le_max_left _ _
      · exact le_trans (ih hm hq') (le_max_right _ _)

theorem candMaxFirst_cons_cons (e a : Entry) (l : List Entry) :
    candMaxFirst (e :: a :: l) =
      candMaxFirst ((if e.priority < a.priority then a else e) :: l) := by
  by_cases hlt : e.priority < a.priority
  · rw [if_pos hlt]
    unfold candMaxFirst
    rcases hm : listMax ((a :: l).map Entry.priority) with _ | m
    · rw [List.map_cons, listMax_cons] at hm
      cases hm
    · have hm' : listMax (a.priority :: l.map Entry.priority) = some m := by
        rw [← List.map_cons]
        exact hm
      have ham : a.priority ≤ m := head_le_listMax hm'
      have hm2 : listMax ((e :: a :: l).map Entry.priority) = some m := by
        rw [List.map_cons, listMax_cons, hm]
        congr 1
        show max e.priority m = m
        exact max_eq_right (le_of_lt (lt_of_lt_of_le hlt ham))
      rw [hm2]
      show List.find? (fun x => decide (x.priority = m)) (e :: a :: l) =
        List.find? (fun x => decide (x.priority = m)) (a :: l)
      have hne : (decide (e.priority = m)) = false := by
        simp only [decide_eq_false_iff_not]
        intro he
        rw [he] at hlt
        exact absurd (lt_of_lt_of_le hlt ham) (lt_irrefl m)
      rw [List.find?_cons, hne]
  · rw [if_neg hlt]
    have hae : a.priority ≤ e.priority := le_of_not_lt hlt
    unfold candMaxFirst
    rcases hm : listMax ((e :: l).map Entry.priority) with _ | m
    · rw [List.map_cons, listMax_cons] at hm
      cases hm
    · have hm' : listMax (e.priority :: l.map Entry.priority) = some m := by
        rw [← List.map_cons]
        exact hm
      have hem : e.priority ≤ m := head_le_listMax hm'
      have hm2 : listMax ((e :: a :: l).map Entry.priority) = some m := by
        rw [List.map_cons, List.map_cons, listMax_cons, listMax_cons]
        congr 1
        show max e.priority (match listMax (l.map Entry.priority) with
          | none => a.priority | some m' => max a.priority m') = m
        rcases hml : listMax (l.map Entry.priority) with _ | m'
        · show max e.priority a.priority = m
          have h2 : e.priority = m := by
            rw [List.map_cons, listMax_cons, hml] at hm
            exact Option.some.inj hm
          rw [max_eq_left hae]
          exact h2
        · show max e.priority (max a.priority m') = m
          have h2 : max e.priority m' = m := by
            rw [List.map_cons, listMax_cons, hml] at hm
            exact Option.some.inj hm
          rw [← max_assoc, max_eq_left hae]
          exact h2
      rw [hm2]
      show List.find? (fun x => decide (x.priority = m)) (e :: a :: l) =
        List.find? (fun x => decide (x.priority = m)) (e :: l)
      by_cases he : e.priority = m
      · simp only [List.find?_cons, decide_eq_true he]
      · have hane : (decide (a.priority = m)) = false := by
          simp only [decide_eq_false_iff_not]
          intro ha
          have h3 : e.priority < m := lt_of_le_of_ne hem he
          rw [← ha] at h3
          exact absurd (lt_of_le_of_lt hae h3) (lt_irrefl _)
        simp only [List.find?_cons, decide_eq_false he, hane]

theorem foldl_entryStep_some (l : List Entry) : ∀ e : Entry,
    l.foldl entryStep (some e) = candMaxFirst (e :: l) := by
  induction l with
  | nil =>
    intro e
    rw [List.foldl_nil]
    unfold candMaxFirst
    rw [List.map_cons, List.map_nil, listMax_cons]
    show some e = List.find? (fun x => decide (x.priority = e.priority)) [e]
    rw [List.find?_cons, decide_eq_true rfl]
  | cons a l ih =>
    intro e
    rw [List.foldl_cons]
    have hstep : entryStep (some e) a = some (if e.priority < a.priority then a else e) := by
      unfold entryStep shouldReplace
      by_cases hlt : e.priority < a.priority
      · rw [if_pos (by simp [hlt]), if_pos hlt]
      · rw [if_neg (by simp [hlt]), if_neg hlt]
    rw [hstep, ih, ← candMaxFirst_cons_cons]

theorem foldl_entryStep_none (l : List Entry) :
    l.foldl entryStep none = candMaxFirst l := by
  cases l with
  | nil => rfl
  | cons e l =>
    rw [List.foldl_cons]
    have h1 : entryStep none e = some e := rfl
    rw [h1, foldl_entryStep_some]

theorem listMax_perm {l₁ l₂ : List Int} (hp : l₁.Perm l₂) : listMax l₁ = listMax l₂ := by
  induction hp with
  | nil => rfl
  | cons x _ ih => rw [listMax_cons, listMax_cons, ih]
  | swap x y l =>
    rw [listMax_cons, listMax_cons, listMax_cons, listMax_cons]
    rcases hm : listMax l with _ | m
    · show some (max y x) = some (max x y)
      rw [max_comm]
    · show some (max y (max x m)) = some (max x (max y m))
      rw [max_left_comm]
  | trans _ _ ih₁ ih₂ => rw [ih₁, ih₂]

theorem candMaxFirst_perm {l₁ l₂ : List Entry} (hp : l₁.Perm l₂)
    (hu : ∀ e₁ ∈ l₁, ∀ e₂ ∈ l₁, e₁.priority = e₂.priority → e₁ = e₂) :
    candMaxFirst l₁ = candMaxFirst l₂ := by
  unfold candMaxFirst
  have hmx : listMax (l₂.map Entry.priority) = listMax (l₁.map Entry.priority) :=
    (listMax_perm (hp.map Entry.priority)).symm
  rw [hmx]
  rcases hm : listMax (l₁.map Entry.priority) with _ | m
  · rfl
  · show l₁.find? (fun e => decide (e.priority = m)) =
      l₂.find? (fun e => decide (e.priority = m))
    have hmem : m ∈ l₁.map Entry.priority := listMax_mem hm
    obtain ⟨e, he, hep⟩ := List.mem_map.mp hmem
    have h₁s : (l₁.find? (fun e => decide (e.priority = m))).isSome = true :=
      List.find?_isSome.mpr ⟨e, he, by rw [decide_eq_true hep]⟩
    have h₂s : (l₂.find? (fun e => decide (e.priority = m))).isSome = true :=
      List.find?_isSome.mpr ⟨e, hp.mem_iff.mp he, by rw [decide_eq_true hep]⟩
    rcases hf₁ : l₁.find? (fun e => decide (e.priority = m)) with _ | x₁
    · rw [hf₁] at h₁s
      cases h₁s
    · rcases hf₂ : l₂.find? (fun e => decide (e.priority = m)) with _ | x₂
      · rw [hf₂] at h₂s
        cases h₂s
      · have hm₁ : x₁ ∈ l₁ := List.mem_of_find?_eq_some hf₁
        have hm₂ : x₂ ∈ l₁ := hp.mem_iff.mpr (List.mem_of_find?_eq_some hf₂)
        have hd₁ := List.find?_some hf₁
        have hd₂ := List.find?_some hf₂
        have hp₁ : x₁.priority = m := of_decide_eq_true hd₁
        have hp₂ : x₂.priority = m := of_decide_eq_true hd₂
        rw [hf₁, hf₂]
        exact congrArg some (hu x₁ hm₁ x₂ hm₂ (hp₁.trans hp₂.symm))

theorem candMaxFirst_eq_of_unique {l : List Entry} {e : Entry}
    (he : e ∈ l) (hmax : ∀ x ∈ l, x.priority ≤ e.priority)
    (huniq : ∀ x ∈ l, x.priority = e.priority → x = e) :
    candMaxFirst l = some e := by
  unfold candMaxFirst
  rcases hm : listMax (l.map Entry.priority) with _ | m
  · rcases l with _ | ⟨a, l'⟩
    · cases he
    · rw [List.map_cons, listMax_cons] at hm
      cases hm
  · show l.find? (fun x => decide (x.priority = m)) = some e
    have hme : m = e.priority := by
      have h1 : m ∈ l.map Entry.priority := listMax_mem hm
      obtain ⟨x, hx, hxp⟩ := List.mem_map.mp h1
      have h2 : e.priority ≤ m :=
        le_listMax_of_mem hm (List.mem_map.mpr ⟨e, he, rfl⟩)
      have h3 : m ≤ e.priority := hxp ▸ hmax x hx
      exact le_antisymm h3 h2
    subst hme
    have hs : (l.find? (fun x => decide (x.priority = e.priority))).isSome = true :=
      List.find?_isSome.mpr ⟨e, he, by rw [decide_eq_true rfl]⟩
    rcases hf : l.find? (fun x => decide (x.priority = e.priority)) with _ | x
    · rw [hf] at hs
      cases hs
    · have hd := List.find?_some hf
      have hxp : x.priority = e.priority := of_decide_eq_true hd
      rw [hf]
      exact congrArg some (huniq x (List.mem_of_find?_eq_some hf) hxp)

theorem mem_setKey {m : List (String × Entry)} {k : String} {e : Entry}
    {x : String × Entry} (hx : x ∈ setKey m k e) : x = (k, e) ∨ x ∈ m := by
  induction m with
  | nil =>
    rw [setKey] at hx
    rcases List.mem_singleton.mp hx with rfl
    exact Or.inl rfl
  | cons p m ih =>
    obtain ⟨k', e'⟩ := p
    rw [setKey] at hx
    by_cases hk : k' = k
    · rw [if_pos hk] at hx
      rcases List.mem_cons.mp hx with rfl | hx'
      · exact Or.inl rfl
      · exact Or.inr (List.mem_cons_of_mem _ hx')
    · rw [if_neg hk] at hx
      rcases List.mem_cons.mp hx with rfl | hx'
      · exact Or.inr (List.mem_cons_self _ _)
      · rcases ih hx' with h1 | h1
        · exact Or.inl h1
        · exact Or.inr (List.mem_cons_of_mem _ h1)

theorem addAll_nodup {u h : String} {l : List SpecializedItem} {c c' : Container}
    (hrun : addAll u h c l = some c') (hnd : (c.map.map Prod.fst).Nodup) :
    (c'.map.map Prod.fst).Nodup := by
  induction l generalizing c with
  | nil =>
    rw [addAll] at hrun
    injection hrun with h1
    subst h1
    exact hnd
  | cons it l ih =>
    rw [addAll] at hrun
    rcases hadd : c.add u h it with _ | c₁
    · rw [hadd] at hrun
      cases hrun
    · rw [hadd] at hrun
      refine ih hrun ?_
      rcases hdst : it.destination with _ | d
      · rw [Container.add, hdst] at hadd
        cases hadd
      · cases hp : get_priority u h it with
        | ok p =>
          rw [add_eq hdst hp] at hadd
          injection hadd with hc₁
          subst hc₁
          show ((if shouldReplace
              (lookupD (destPathR c.srcRoot c.dstRoot it.directory d) c.map) p
            then setKey c.map (destPathR c.srcRoot c.dstRoot it.directory d)
              (Entry.mk (srcPathR c.srcRoot it.directory it.filename) p)
            else c.map).map Prod.fst).Nodup
          by_cases hrep : shouldReplace
              (lookupD (destPathR c.srcRoot c.dstRoot it.directory d) c.map) p
          · rw [if_pos hrep]
            exact nodup_setKey _ _ hnd
          · rw [if_neg hrep]
            exact hnd
        | exn =>
          rw [Container.add, hdst, hp] at hadd
          cases hadd
        | undef =>
          rw [Container.add, hdst, hp] at hadd
          cases hadd

theorem qualSuffix_block (c : Char) (l : List Char) :
    qualSuffix (c :: (l ++ ['<', '>'])) = none := by
  by_cases hc : c = '<'
  · subst hc
    rw [qualSuffix]
    have hrev : (l ++ ['<', '>']).reverse = '>' :: '<' :: l.reverse := by
      rw [List.reverse_append]
      rfl
    rw [hrev]
    have hcont : ('<' :: l.reverse).contains '<' = true := by
      simp [List.contains_cons]
    show (if ('<' :: l.reverse).contains '<' = true then none
          else some ('<' :: l.reverse).reverse) = none
    rw [hcont]
    rfl
  · rw [qualSuffix.eq_def]
    split
    · rename_i rest heq
      injection heq with h1 _
      exact absurd h1 hc
    · rfl

theorem splitNameSpec_append {n : List Char} (hne : n ≠ []) (hnl : ∀ c ∈ n, c ≠ '\n') :
    ∀ acc, splitNameSpec acc (n ++ ['<', '>']) = some (acc ++ n, some []) := by
  induction n with
  | nil => cases hne rfl
  | cons c n ih =>
    intro acc
    have hc : c ≠ '\n' := hnl c (List.mem_cons_self c n)
    rw [List.cons_append, splitNameSpec, if_neg hc]
    cases n with
    | nil =>
      rw [List.nil_append]
      show (if (['<', '>'] : List Char).isEmpty then
          some (acc ++ [c], none)
        else
          match qualSuffix ['<', '>'] with
          | some t => some (acc ++ [c], some t)
          | none => splitNameSpec (acc ++ [c]) ['<', '>']) = some (acc ++ [c], some [])
      rw [if_neg (by simp)]
      have hq : qualSuffix ['<', '>'] = some [] := rfl
      rw [hq]
    | cons c' n' =>
      show (if ((c' :: n') ++ ['<', '>']).isEmpty then
          some (acc ++ [c], none)
        else
          match qualSuffix ((c' :: n') ++ ['<', '>']) with
          | some t => some (acc ++ [c], some t)
          | none => splitNameSpec (acc ++ [c]) ((c' :: n') ++ ['<', '>'])) =
        some (acc ++ (c :: c' :: n'), some [])
      rw [if_neg (by simp), List.cons_append, qualSuffix_block c' n']
      show splitNameSpec (acc ++ [c]) (c' :: (n' ++ ['<', '>'])) =
        some (acc ++ (c :: c' :: n'), some [])
      have hrec := ih (by simp) (fun x hx => hnl x (List.mem_cons_of_mem _ hx)) (acc ++ [c])
      rw [List.cons_append] at hrec
      rw [hrec]
      have hl : (acc ++ [c]) ++ (c' :: n') = acc ++ (c :: c' :: n') := by
        rw [List.append_assoc]
        rfl
      rw [hl]

theorem getLast_append_pair (l : List Char) (a b : Char) :
    (l ++ [a, b]).getLast? = some b := by
  rw [List.getLast?_eq_head?_reverse, List.reverse_append]
  rfl

theorem dropFinalNl_append_pair (l : List Char) :
    dropFinalNl (l ++ ['<', '>']) = l ++ ['<', '>'] := by
  unfold dropFinalNl
  rw [getLast_append_pair]
  simp

theorem valid_priority_ok {u h : String} {it : SpecializedItem}
    (hv : is_valid u h it = .ok true) :
    ∃ p : Int, get_priority u h it = .ok p ∧ 0 ≤ p := by
  rcases hspec : it.specialization with _ | sp
  · exact ⟨0, prio_absent hspec, le_refl 0⟩
  · by_cases hsp0 : sp = ""
    · subst hsp0
      exact ⟨0, prio_empty hspec, le_refl 0⟩
    · unfold is_valid at hv
      rw [if_neg (by simp [hspec]), hspec] at hv
      rcases hvp : validPattern u h with _ | r
      · rw [hvp] at hv
        cases hv
      · rw [hvp] at hv
        have hsome : (reFullMatch r sp.toList).isSome = true := PyVal.ok.inj hv
        unfold validPattern at hvp
        rcases hcu : compileFrag u.toList with _ | U <;> rw [hcu] at hvp
        · cases hvp
        · rcases hch : compileFrag h.toList with _ | H <;> rw [hch] at hvp
          · cases hvp
          · injection hvp with hr
            subst hr
            have hprio : prioPattern u h = some (prioAST U H) := by
              unfold prioPattern
              rw [hcu, hch]
            have hmem : ([] ∈ (prioAST U H).rests sp.toList ∨
                ['\n'] ∈ (prioAST U H).rests sp.toList) := by
              rw [← rests_valid_eq_prio]
              exact reFullMatch_isSome_iff.mp hsome
            have hps : (reFullMatch (prioAST U H) sp.toList).isSome = true :=
              reFullMatch_isSome_iff.mpr hmem
            rcases hcaps : reFullMatch (prioAST U H) sp.toList with _ | caps
            · rw [hcaps] at hps
              cases hps
            · refine ⟨countTruthy caps, ?_, ?_⟩
              · rw [get_priority_some hspec hsp0, hprio]
                show (match reFullMatch (prioAST U H) sp.toList with
                      | none => (PyVal.ok (-1) : PyVal Int)
                      | some caps => .ok (countTruthy caps)) = .ok (countTruthy caps)
                rw [hcaps]
              · unfold countTruthy
                exact Int.ofNat_nonneg _

theorem processFiles_entries {u h : String} {ig : String → Bool}
    {l : List (String × String)} {c c' : Container}
    (hrun : processFiles u h ig c l = some c')
    (hnn : ∀ x ∈ c.map, 0 ≤ x.2.priority) :
    ∀ x ∈ c'.map, 0 ≤ x.2.priority := by
  induction l generalizing c with
  | nil =>
    rw [processFiles] at hrun
    injection hrun with h1
    subst h1
    exact hnn
  | cons pr l ih =>
    obtain ⟨root, name⟩ := pr
    rw [processFiles] at hrun
    rcases hv : is_valid u h (SpecializedItem.make root name) with v | _ | _ <;>
      rw [hv] at hrun
    · have hrun2 : (if (!v || ig (SpecializedItem.make root name).filename) = true
          then processFiles u h ig c l
          else
            match Container.add u h c (SpecializedItem.make root name) with
            | some c₁ => processFiles u h ig c₁ l
            | none => none) = some c' := hrun
      by_cases hskip : (!v || ig (SpecializedItem.make root name).filename) = true
      · rw [if_pos hskip] at hrun2
        exact ih hrun2 hnn
      · rw [if_neg hskip] at hrun2
        have hvt : v = true := by
          rcases v with _ | _
          · simp at hskip
          · rfl
        subst hvt
        rcases hadd : Container.add u h c (SpecializedItem.make root name) with _ | c₁ <;>
          rw [hadd] at hrun2
        · cases hrun2
        · refine ih hrun2 ?_
          obtain ⟨p, hp, hp0⟩ := valid_priority_ok hv
          rcases hdst : (SpecializedItem.make root name).destination with _ | d
          · rw [Container.add, hdst] at hadd
            cases hadd
          · rw [add_eq hdst hp] at hadd
            injection hadd with hc₁
            subst hc₁
            intro x hx
            have hx2 : x ∈ (if shouldReplace (lookupD (destPathR c.srcRoot c.dstRoot
                  (SpecializedItem.make root name).directory d) c.map) p
                then setKey c.map (destPathR c.srcRoot c.dstRoot
                    (SpecializedItem.make root name).directory d)
                  (Entry.mk (srcPathR c.srcRoot (SpecializedItem.make root name).directory
                    (SpecializedItem.make root name).filename) p)
                else c.map) := hx
            by_cases hrep : shouldReplace (lookupD (destPathR c.srcRoot c.dstRoot
                (SpecializedItem.make root name).directory d) c.map) p
            · rw [if_pos hrep] at hx2
              rcases mem_setKey hx2 with rfl | hmem
              · exact hp0
              · exact hnn x hmem
            · rw [if_neg hrep] at hx2
              exact hnn x hx2
    · cases hrun
    · cases hrun

theorem make_filename (d f : String) : (SpecializedItem.make d f).filename = f := by
  unfold SpecializedItem.make
  rcases splitNameSpec [] (dropFinalNl f.toList) with _ | ⟨n, sp⟩ <;> rfl

theorem make_directory (d f : String) : (SpecializedItem.make d f).directory = d := by
  unfold SpecializedItem.make
  rcases splitNameSpec [] (dropFinalNl f.toList) with _ | ⟨n, sp⟩ <;> rfl

theorem processFiles_excluded {u h : String} {ig : String → Bool}
    {l : List (String × String)} {c c' : Container} {D : String}
    (hrun : processFiles u h ig c l = some c')
    (hex : ∀ pr ∈ l, ∀ d : String,
      (SpecializedItem.make pr.1 pr.2).destination = some d →
      destPathR c.srcRoot c.dstRoot pr.1 d = D →
      is_valid u h (SpecializedItem.make pr.1 pr.2) = .ok false ∨ ig pr.2 = true) :
    lookupD D c'.map = lookupD D c.map := by
  induction l generalizing c with
  | nil =>
    rw [processFiles] at hrun
    injection hrun with h1
    subst h1
    rfl
  | cons pr l ih =>
    obtain ⟨root, name⟩ := pr
    rw [processFiles] at hrun
    rcases hv : is_valid u h (SpecializedItem.make root name) with v | _ | _ <;>
      rw [hv] at hrun
    · have hrun2 : (if (!v || ig (SpecializedItem.make root name).filename) = true
          then processFiles u h ig c l
          else
            match Container.add u h c (SpecializedItem.make root name) with
            | some c₁ => processFiles u h ig c₁ l
            | none => none) = some c' := hrun
      by_cases hskip : (!v || ig (SpecializedItem.make root name).filename) = true
      · rw [if_pos hskip] at hrun2
        exact ih hrun2 (fun pr hpr => hex pr (List.mem_cons_of_mem _ hpr))
      · rw [if_neg hskip] at hrun2
        have hvt : v = true := by
          rcases v with _ | _
          · simp at hskip
          · rfl
        subst hvt
        have hig : ig name = false := by
          rcases hig0 : ig name with _ | _
          · rfl
          · rw [make_filename] at hskip
            simp [hig0] at hskip
        rcases hadd : Container.add u h c (SpecializedItem.make root name) with _ | c₁ <;>
          rw [hadd] at hrun2
        · cases hrun2
        · rcases hdst : (SpecializedItem.make root name).destination with _ | d
          · rw [Container.add, hdst] at hadd
            cases hadd
          · cases hp : get_priority u h (SpecializedItem.make root name) with
            | ok p =>
              rw [add_eq hdst hp] at hadd
              injection hadd with hc₁
              have hD : destPathR c.srcRoot c.dstRoot root d ≠ D := by
                intro hD0
                rcases hex (root, name) (List.mem_cons_self _ _) d
                    (by rw [hdst]) hD0 with hbad | hbad
                · rw [hv] at hbad
                  injection hbad with hbad
                  cases hbad
                · rw [hbad] at hig
                  cases hig
              have hlk : lookupD D c₁.map = lookupD D c.map := by
                rw [← hc₁]
                show lookupD D (if shouldReplace (lookupD (destPathR c.srcRoot c.dstRoot
                      (SpecializedItem.make root name).directory d) c.map) p
                    then setKey c.map (destPathR c.srcRoot c.dstRoot
                        (SpecializedItem.make root name).directory d)
                      (Entry.mk (srcPathR c.srcRoot (SpecializedItem.make root name).directory
                        (SpecializedItem.make root name).filename) p)
                    else c.map) = lookupD D c.map
                by_cases hrep : shouldReplace (lookupD (destPathR c.srcRoot c.dstRoot
                    (SpecializedItem.make root name).directory d) c.map) p
                · rw [if_pos hrep]
                  refine lookupD_setKey_ne c.map _ ?_
                  rw [make_directory]
                  exact hD
                · rw [if_neg hrep]
              have hroots : c₁.srcRoot = c.srcRoot ∧ c₁.dstRoot = c.dstRoot := by
                rw [← hc₁]
                exact ⟨rfl, rfl⟩
              have htail := ih hrun2 (fun pr hpr d hd hpath =>
                hex pr (List.mem_cons_of_mem _ hpr) d hd
                  (by rw [← hroots.1, ← hroots.2]; exact hpath))
              rw [htail, hlk]
            | exn =>
              rw [Container.add, hdst, hp] at hadd
              cases hadd
            | undef =>
              rw [Container.add, hdst, hp] at hadd
              cases hadd
    · cases hrun
    · cases hrun

theorem mem_cands {u h sR dR D : String} {l : List SpecializedItem} {e : Entry}
    (he : e ∈ cands u h sR dR D l) :
    ∃ it ∈ l, ∃ d p, it.destination = some d ∧ get_priority u h it = .ok p ∧
      destPathR sR dR it.directory d = D ∧
      e = Entry.mk (srcPathR sR it.directory it.filename) p := by
  unfold cands at he
  obtain ⟨it, hit, hce⟩ := List.mem_filterMap.mp he
  rcases hdst : it.destination with _ | d
  · simp [candEntry, hdst] at hce
  · cases hp : get_priority u h it with
    | ok p =>
      rw [candEntry_eq hdst hp] at hce
      by_cases hD : destPathR sR dR it.directory d = D
      · rw [if_pos hD] at hce
        injection hce with hce
        exact ⟨it, hit, d, p, hdst, hp, hD, hce.symm⟩
      · rw [if_neg hD] at hce
        cases hce
    | exn => simp [candEntry, hdst, hp] at hce
    | undef => simp [candEntry, hdst, hp] at hce

theorem add_no_replace {u h : String} {c : Container} {it : SpecializedItem} {d : String}
    (hdst : it.destination = some d) {p : Int} (hp : get_priority u h it = .ok p)
    (hrep : shouldReplace (lookupD (destPathR c.srcRoot c.dstRoot it.directory d) c.map) p
      = false) :
    c.add u h it = some c := by
  rw [add_eq hdst hp, hrep]
  rfl

/-- C1: the claim says the priority function scores a bare-host qualifier 1,
a bare-username qualifier 1 and a combined qualifier 2, host and username
tying.  The counterexample: with identity alice at box1, the qualifier alice
scores 2, not 1, so a bare username strictly outranks a bare host. -/
theorem C1_counterexample :
    get_priority "alice" "box1" (SpecializedItem.make "/s" "f<alice>") = .ok 2 ∧
    get_priority "alice" "box1" (SpecializedItem.make "/s" "f<box1>") = .ok 1 ∧
    get_priority "alice" "box1" (SpecializedItem.make "/s" "f<alice>") ≠ .ok 1 ∧
    get_priority "alice" "box1" (SpecializedItem.make "/s" "f<alice>") ≠
      get_priority "alice" "box1" (SpecializedItem.make "/s" "f<box1>") := by
  decide

/-- C1 (amended): for an identity whose username and host are distinct,
non-empty, free of regex metacharacters and free of newlines, get_priority
returns 0 for an absent or empty qualifier, 1 for the bare host, 2 for the
bare username, 3 for username at host — each also when the qualifier
carries one trailing newline, which the dollar anchor tolerates — and -1
for any other non-empty qualifier; a bare username strictly outranks a
bare host. -/
theorem C1_amended (u h : String) (hu : plainStr u = true) (hh : plainStr h = true)
    (hune : u ≠ "") (hhne : h ≠ "") (hneq : u ≠ h)
    (hunl : '\n' ∉ u.toList) (hhnl : '\n' ∉ h.toList) :
    (∀ it : SpecializedItem, it.specialization = none → get_priority u h it = .ok 0) ∧
    (∀ it : SpecializedItem, it.specialization = some "" → get_priority u h it = .ok 0) ∧
    (∀ it : SpecializedItem,
      it.specialization = some h ∨ it.specialization = some (h ++ "\n") →
      get_priority u h it = .ok 1) ∧
    (∀ it : SpecializedItem,
      it.specialization = some u ∨ it.specialization = some (u ++ "\n") →
      get_priority u h it = .ok 2) ∧
    (∀ it : SpecializedItem,
      it.specialization = some (u ++ "@" ++ h) ∨
        it.specialization = some (u ++ "@" ++ h ++ "\n") →
      get_priority u h it = .ok 3) ∧
    (∀ (it : SpecializedItem) (sp : String), it.specialization = some sp → sp ≠ "" →
      sp ≠ h → sp ≠ u → sp ≠ u ++ "@" ++ h → sp ≠ h ++ "\n" → sp ≠ u ++ "\n" →
      sp ≠ u ++ "@" ++ h ++ "\n" → get_priority u h it = .ok (-1)) := by
  have hne2 : u ≠ h ++ "\n" := by
    intro h0
    apply hunl
    rw [h0, toList_append_nl]
    simp
  have hne3 : h ≠ u ++ "\n" := by
    intro h0
    apply hhnl
    rw [h0, toList_append_nl]
    simp
  refine ⟨fun _ hsp => prio_absent hsp,
    fun _ hsp => prio_empty hsp,
    fun it hsp => ?_, fun it hsp => ?_, fun it hsp => ?_,
    fun _ _ hsp h0 h1 h2 h3 h4 h5 h6 => prio_nomatch hu hh hsp h0 h1 h2 h3 h4 h5 h6⟩
  · rcases hsp with hsp | hsp
    · exact prio_spec_host hu hh hsp hhne
    · exact prio_spec_host_nl hu hh hsp hhne
  · rcases hsp with hsp | hsp
    · exact prio_spec_user hu hh hsp hune hneq hne2
    · exact prio_spec_user_nl hu hh hsp hune hneq hne3
  · rcases hsp with hsp | hsp
    · exact prio_spec_userhost hu hh hsp hune
    · exact prio_spec_userhost_nl hu hh hsp

/-- Witness for C1 (amended) at the identity alice at box1. -/
theorem C1_amended_witness :
    get_priority "alice" "box1" (SpecializedItem.make "/s" "bashrc<alice>") = .ok 2 :=
  (C1_amended "alice" "box1" (by decide) (by decide) (by decide) (by decide)
    (by decide) (by decide) (by decide)).2.2.2.1
    (SpecializedItem.make "/s" "bashrc<alice>") (Or.inl rfl)

/-- C4: the claim says validity is literal character-for-character equality
even when the username or host contains regex metacharacters.  The
counterexample: with host a.b the formatted pattern treats the dot as a
regex wildcard, so the qualifier axb is accepted although it equals none of
the three literal forms. -/
theorem C4_counterexample :
    is_valid "u" "a.b" (SpecializedItem.make "/s" "f<axb>") = .ok true ∧
    (SpecializedItem.make "/s" "f<axb>").specialization = some "axb" ∧
    "axb" ≠ "a.b" ∧ "axb" ≠ "u" ∧ "axb" ≠ "u" ++ "@" ++ "a.b" := by
  decide

/-- C4 (amended): for identities free of regex metacharacters, a parsed
item is valid exactly when its qualifier is absent or is literally the
host, the username, or username at host, optionally followed by one
trailing newline, which the dollar anchor of the formatted pattern
tolerates; with metacharacters in the identity the qualifier is instead
matched against the formatted regex, as the counterexample shows. -/
theorem C4_amended (u h : String) (hu : plainStr u = true) (hh : plainStr h = true)
    (it : SpecializedItem) (d : String) (hd : it.destination = some d) (hdne : d ≠ "") :
    is_valid u h it = .ok true ↔
      (it.specialization = none ∨ it.specialization = some h ∨
        it.specialization = some u ∨ it.specialization = some (u ++ "@" ++ h) ∨
        it.specialization = some (h ++ "\n") ∨ it.specialization = some (u ++ "\n") ∨
        it.specialization = some (u ++ "@" ++ h ++ "\n")) := by
  rcases hsp : it.specialization with _ | sp
  · constructor
    · intro _
      exact Or.inl rfl
    · intro _
      have hdt : destTruthy it = true := by
        unfold destTruthy
        rw [hd]
        simp [hdne]
      unfold is_valid
      rw [if_pos ⟨hdt, hsp⟩]
  · rw [is_valid_of_spec hu hh hsp]
    constructor
    · intro hok
      have hdec := PyVal.ok.inj hok
      have hP := of_decide_eq_true hdec
      rcases hP with h1 | h1 | h1 | h1 | h1 | h1
      · exact Or.inr (Or.inl (by rw [h1]))
      · exact Or.inr (Or.inr (Or.inl (by rw [h1])))
      · exact Or.inr (Or.inr (Or.inr (Or.inl (by rw [h1]))))
      · exact Or.inr (Or.inr (Or.inr (Or.inr (Or.inl (by rw [h1])))))
      · exact Or.inr (Or.inr (Or.inr (Or.inr (Or.inr (Or.inl (by rw [h1]))))))
      · exact Or.inr (Or.inr (Or.inr (Or.inr (Or.inr (Or.inr (by rw [h1]))))))
    · intro hOr
      have hP : sp = h ∨ sp = u ∨ sp = u ++ "@" ++ h ∨ sp = h ++ "\n" ∨
          sp = u ++ "\n" ∨ sp = u ++ "@" ++ h ++ "\n" := by
        rcases hOr with h1 | h1 | h1 | h1 | h1 | h1 | h1
        · cases h1
        · exact Or.inl (Option.some.inj h1)
        · exact Or.inr (Or.inl (Option.some.inj h1))
        · exact Or.inr (Or.inr (Or.inl (Option.some.inj h1)))
        · exact Or.inr (Or.inr (Or.inr (Or.inl (Option.some.inj h1))))
        · exact Or.inr (Or.inr (Or.inr (Or.inr (Or.inl (Option.some.inj h1)))))
        · exact Or.inr (Or.inr (Or.inr (Or.inr (Or.inr (Option.some.inj h1)))))
      rw [decide_eq_true hP]

/-- Witness for C4 (amended) at the identity alice at box1. -/
theorem C4_amended_witness :
    is_valid "alice" "box1" (SpecializedItem.make "/s" "f<box1>") = .ok true :=
  (C4_amended "alice" "box1" (by decide) (by decide)
    (SpecializedItem.make "/s" "f<box1>") "f" rfl (by decide)).mpr
    (Or.inr (Or.inl rfl))

/-- C5: the claim says a file in /src/a/b under source root /src with
destination root /out maps to /out/b/myfile, the root segment of the
relative directory being dropped.  The counterexample: add maps it to
/out/a/b/myfile, preserving the whole relative directory, and the claimed
destination receives no entry. -/
theorem C5_counterexample :
    Container.add "alice" "box1" (Container.init "/src" "/out")
      (SpecializedItem.make "/src/a/b" "myfile") =
      some (Container.mk "/src" "/out"
        [("/out/a/b/myfile", Entry.mk "/src/a/b/myfile" 0)]) ∧
    lookupD "/out/b/myfile"
      [("/out/a/b/myfile", Entry.mk "/src/a/b/myfile" 0)] = none ∧
    "/out/a/b/myfile" ≠ "/out/b/myfile" := by
  decide

/-- C5 (amended): with source root /src and destination root /out, a
candidate file in /src/a/b named myfile is mapped to exactly
/out/a/b/myfile: the directory structure relative to the source root is
preserved in full and no segment is dropped. -/
theorem C5_amended :
    destPathR "/src" "/out" "/src/a/b" "myfile" = "/out/a/b/myfile" ∧
    Container.add "alice" "box1" (Container.init "/src" "/out")
      (SpecializedItem.make "/src/a/b" "myfile") =
      some (Container.mk "/src" "/out"
        [("/out/a/b/myfile", Entry.mk "/src/a/b/myfile" 0)]) := by
  decide

/-- C6: the claim says an unparsable filename is skipped without any error,
is_valid returning false and the walk continuing.  On the code, a filename
the parsing regex rejects (here a lone newline character) leaves both
fields None, and is_valid then calls re.match on None, raising TypeError
and aborting the walk: the file after it is never processed. -/
theorem C6_parse_failure_raises :
    (SpecializedItem.make "/s" "\n").destination = none ∧
    (SpecializedItem.make "/s" "\n").specialization = none ∧
    is_valid "alice" "box1" (SpecializedItem.make "/s" "\n") = .exn ∧
    processFiles "alice" "box1" (fun _ => false) (Container.init "/s" "/o")
      [("/s", "\n"), ("/s", "config")] = none := by
  decide

/-- C9: add is idempotent: once an item has been added, adding the same
item again leaves the container exactly as it was, because an incumbent
entry of equal priority is never replaced. -/
theorem C9_add_idempotent (u h : String) (c : Container) (it : SpecializedItem)
    {c' : Container} (hadd : c.add u h it = some c') : c'.add u h it = some c' := by
  rcases hdst : it.destination with _ | d
  · rw [Container.add, hdst] at hadd
    cases hadd
  · cases hp : get_priority u h it with
    | ok p =>
      rw [add_eq hdst hp] at hadd
      by_cases hrep : shouldReplace
          (lookupD (destPathR c.srcRoot c.dstRoot it.directory d) c.map) p
      · rw [if_pos hrep] at hadd
        injection hadd with hc'
        subst hc'
        refine add_no_replace hdst hp ?_
        show shouldReplace (lookupD (destPathR c.srcRoot c.dstRoot it.directory d)
            (setKey c.map (destPathR c.srcRoot c.dstRoot it.directory d)
              (Entry.mk (srcPathR c.srcRoot it.directory it.filename) p))) p = false
        rw [lookupD_setKey_self]
        show decide
          ((Entry.mk (srcPathR c.srcRoot it.directory it.filename) p).priority < p) = false
        simp
      · rw [if_neg hrep] at hadd
        injection hadd with hc'
        subst hc'
        refine add_no_replace hdst hp ?_
        show shouldReplace (lookupD (destPathR c.srcRoot c.dstRoot it.directory d) c.map) p
          = false
        rcases hx : shouldReplace
            (lookupD (destPathR c.srcRoot c.dstRoot it.directory d) c.map) p
        · rfl
        · exact absurd hx hrep
    | exn =>
      rw [Container.add, hdst, hp] at hadd
      cases hadd
    | undef =>
      rw [Container.add, hdst, hp] at hadd
      cases hadd

/-- Witness for C9: adding a concrete file to its own add-result changes
nothing. -/
theorem C9_witness :
    Container.add "al" "bx" (Container.mk "/s" "/o" [("/o/d/f", Entry.mk "/s/d/f" 0)])
      (SpecializedItem.make "/s/d" "f") =
      some (Container.mk "/s" "/o" [("/o/d/f", Entry.mk "/s/d/f" 0)]) :=
  C9_add_idempotent "al" "bx" (Container.init "/s" "/o") (SpecializedItem.make "/s/d" "f")
    (by decide)

/-- C10: the claim says a filename of the form name followed by an empty
pair of angle brackets is judged invalid for every identity with
non-empty username and host.  The counterexample: with host b question
mark, the formatted pattern matches the empty string, so the empty
qualifier is judged valid. -/
theorem C10_counterexample :
    (SpecializedItem.make "/s" "f<>").specialization = some "" ∧
    is_valid "a" "b?" (SpecializedItem.make "/s" "f<>") = .ok true ∧
    ("a" : String) ≠ "" ∧ ("b?" : String) ≠ "" ∧
    get_priority "a" "b?" (SpecializedItem.make "/s" "f<>") = .ok 0 := by
  decide

/-- C10 (amended): a filename of the form name followed by an empty pair
of angle brackets parses with qualifier equal to the empty string, is
judged invalid, and still gets priority 0 like an unqualified filename,
not the -1 sentinel — for any base name in the parsing grammar (non-empty,
newline-free) and any identity with non-empty metacharacter-free username
and host; an identity with metacharacters can render the empty qualifier
valid, as the counterexample shows. -/
theorem C10_empty_qualifier (dir n u h : String)
    (hne : n ≠ "") (hnl : ∀ c ∈ n.toList, c ≠ '\n')
    (hu : plainStr u = true) (hh : plainStr h = true)
    (hune : u ≠ "") (hhne : h ≠ "") :
    (SpecializedItem.make dir (n ++ "<>")).destination = some n ∧
    (SpecializedItem.make dir (n ++ "<>")).specialization = some "" ∧
    is_valid u h (SpecializedItem.make dir (n ++ "<>")) = .ok false ∧
    get_priority u h (SpecializedItem.make dir (n ++ "<>")) = .ok 0 ∧
    (∀ it : SpecializedItem, it.specialization = none → get_priority u h it = .ok 0) := by
  have htl : (n ++ "<>").toList = n.toList ++ ['<', '>'] := by
    show (n ++ "<>").data = n.data ++ ['<', '>']
    rw [String.data_append]
  have hsplit : splitNameSpec [] (dropFinalNl ((n ++ "<>").toList))
      = some (n.toList, some []) := by
    rw [htl, dropFinalNl_append_pair]
    have := splitNameSpec_append (string_ne_nil hne) hnl []
    rwa [List.nil_append] at this
  have hmk : SpecializedItem.make dir (n ++ "<>") =
      ⟨dir, n ++ "<>", some (String.mk n.toList), some (String.mk [])⟩ := by
    unfold SpecializedItem.make
    rw [hsplit]
    rfl
  have hnstr : String.mk n.toList = n := rfl
  have hestr : String.mk ([] : List Char) = "" := rfl
  rw [hmk, hnstr, hestr]
  have hsp : (⟨dir, n ++ "<>", some n, some ""⟩ : SpecializedItem).specialization
      = some "" := rfl
  refine ⟨rfl, rfl, ?_, prio_empty hsp, fun _ h0 => prio_absent h0⟩
  rw [is_valid_of_spec hu hh hsp]
  have hfalse : ¬ (("" : String) = h ∨ ("" : String) = u ∨ "" = u ++ "@" ++ h ∨
      ("" : String) = h ++ "\n" ∨ ("" : String) = u ++ "\n" ∨
      "" = u ++ "@" ++ h ++ "\n") := by
    rintro (h1 | h1 | h1 | h1 | h1 | h1)
    · exact hhne h1.symm
    · exact hune h1.symm
    · have h2 : ([] : List Char) = u.toList ++ '@' :: h.toList :=
        (congrArg String.toList h1).trans (toList_userhost u h)
      exact absurd h2.symm (by simp)
    · have h2 : ([] : List Char) = h.toList ++ ['\n'] :=
        (congrArg String.toList h1).trans (toList_append_nl h)
      exact absurd h2.symm (by simp)
    · have h2 : ([] : List Char) = u.toList ++ ['\n'] :=
        (congrArg String.toList h1).trans (toList_append_nl u)
      exact absurd h2.symm (by simp)
    · have h2 : ([] : List Char) = u.toList ++ '@' :: (h.toList ++ ['\n']) :=
        (congrArg String.toList h1).trans (toList_userhost_nl u h)
      exact absurd h2.symm (by simp)
  rw [decide_eq_false hfalse]

/-- Witness for C10 (amended) at a concrete base name and identity. -/
theorem C10_witness :
    get_priority "alice" "box1" (SpecializedItem.make "/s" ("conf" ++ "<>")) = .ok 0 :=
  (C10_empty_qualifier "/s" "conf" "alice" "box1" (by decide) (by decide) (by decide)
    (by decide) (by decide) (by decide)).2.2.2.1

/-- C2: the claim quantifies over every identity.  The counterexample:
with username a and host dot star, all three candidate files are valid,
but the greedy star lets the host alternative swallow the whole qualifier
a at dot star, leaving the username groups empty, so the host-qualified
and the username-at-host-qualified candidates tie at priority 1 and the
first-seen host candidate is retained: the username-at-host variant is not
selected. -/
theorem C2_counterexample :
    is_valid "a" ".*" (SpecializedItem.make "/s/d" "f<.*>") = .ok true ∧
    is_valid "a" ".*" (SpecializedItem.make "/s/d" "f<a@.*>") = .ok true ∧
    is_valid "a" ".*" (SpecializedItem.make "/s/d" "f") = .ok true ∧
    get_priority "a" ".*" (SpecializedItem.make "/s/d" "f<.*>") = .ok 1 ∧
    get_priority "a" ".*" (SpecializedItem.make "/s/d" "f<a@.*>") = .ok 1 ∧
    processFiles "a" ".*" (fun _ => false) (Container.init "/s" "/o")
      [("/s/d", "f<.*>"), ("/s/d", "f<a@.*>"), ("/s/d", "f")] =
      some (Container.mk "/s" "/o" [("/o/d/f", Entry.mk "/s/d/f<.*>" 1)]) ∧
    ("/s/d/f<.*>" : String) ≠ "/s/d/f<a@.*>" := by
  decide

/-- C2 (amended): for an identity with non-empty metacharacter-free
username and host, when three candidates for one destination carry the
bare-host qualifier, the username-at-host qualifier and no qualifier, the
final map entry for that destination is the username-at-host candidate, in
whatever order the three are added (its priority 3 is the strict
maximum). -/
theorem C2_userhost_selected (u h sR dR : String)
    (hu : plainStr u = true) (hh : plainStr h = true) (hhne : h ≠ "") (hune : u ≠ "")
    (i1 i2 i3 : SpecializedItem) (d1 d2 d3 D : String)
    (h1d : i1.destination = some d1) (h2d : i2.destination = some d2)
    (h3d : i3.destination = some d3)
    (h1s : i1.specialization = some h)
    (h2s : i2.specialization = some (u ++ "@" ++ h))
    (h3s : i3.specialization = none)
    (hD1 : destPathR sR dR i1.directory d1 = D)
    (hD2 : destPathR sR dR i2.directory d2 = D)
    (hD3 : destPathR sR dR i3.directory d3 = D)
    {l : List SpecializedItem} (hperm : l.Perm [i1, i2, i3])
    {c' : Container} (hrun : addAll u h (Container.init sR dR) l = some c') :
    lookupD D c'.map = some (Entry.mk (srcPathR sR i2.directory i2.filename) 3) := by
  have hp1 : get_priority u h i1 = .ok 1 := prio_spec_host hu hh h1s hhne
  have hp2 : get_priority u h i2 = .ok 3 := prio_spec_userhost hu hh h2s hune
  have hp3 : get_priority u h i3 = .ok 0 := prio_absent h3s
  obtain ⟨_, _, hl⟩ := addAll_lookup hrun D
  rw [hl]
  show (cands u h sR dR D l).foldl entryStep none =
    some (Entry.mk (srcPathR sR i2.directory i2.filename) 3)
  rw [foldl_entryStep_none]
  have hc1 : candEntry u h sR dR D i1 =
      some (Entry.mk (srcPathR sR i1.directory i1.filename) 1) := by
    rw [candEntry_eq h1d hp1, if_pos hD1]
  have hc2 : candEntry u h sR dR D i2 =
      some (Entry.mk (srcPathR sR i2.directory i2.filename) 3) := by
    rw [candEntry_eq h2d hp2, if_pos hD2]
  have hc3 : candEntry u h sR dR D i3 =
      some (Entry.mk (srcPathR sR i3.directory i3.filename) 0) := by
    rw [candEntry_eq h3d hp3, if_pos hD3]
  have hcands3 : cands u h sR dR D [i1, i2, i3] =
      [Entry.mk (srcPathR sR i1.directory i1.filename) 1,
       Entry.mk (srcPathR sR i2.directory i2.filename) 3,
       Entry.mk (srcPathR sR i3.directory i3.filename) 0] := by
    unfold cands
    rw [List.filterMap_cons, hc1, List.filterMap_cons, hc2, List.filterMap_cons, hc3]
    rfl
  have hpermc : (cands u h sR dR D l).Perm
      [Entry.mk (srcPathR sR i1.directory i1.filename) 1,
       Entry.mk (srcPathR sR i2.directory i2.filename) 3,
       Entry.mk (srcPathR sR i3.directory i3.filename) 0] := by
    rw [← hcands3]
    exact hperm.filterMap _
  have huniq : ∀ x ∈ cands u h sR dR D l, ∀ y ∈ cands u h sR dR D l,
      x.priority = y.priority → x = y := by
    intro x hx y hy hxy
    have hx3 := hpermc.mem_iff.mp hx
    have hy3 := hpermc.mem_iff.mp hy
    simp only [List.mem_cons, List.not_mem_nil, or_false] at hx3 hy3
    rcases hx3 with rfl | rfl | rfl <;> rcases hy3 with rfl | rfl | rfl <;>
      first
        | rfl
        | exact absurd hxy (by norm_num)
  rw [candMaxFirst_perm hpermc huniq]
  refine candMaxFirst_eq_of_unique ?_ ?_ ?_
  · exact List.mem_cons_of_mem _ (List.mem_cons_self _ _)
  · intro x hx
    simp only [List.mem_cons, List.not_mem_nil, or_false] at hx
    rcases hx with rfl | rfl | rfl <;> norm_num
  · intro x hx hxp
    simp only [List.mem_cons, List.not_mem_nil, or_false] at hx
    rcases hx with rfl | rfl | rfl
    · exact absurd hxp (by norm_num)
    · rfl
    · exact absurd hxp (by norm_num)

/-- Witness for C2 (amended): the three concrete candidates added in a
mixed order. -/
theorem C2_witness :
    lookupD "/o/d/config"
      [("/o/d/config", Entry.mk "/s/d/config<alice@box1>" 3)] =
      some (Entry.mk "/s/d/config<alice@box1>" 3) := by
  have hrun : addAll "alice" "box1" (Container.init "/s" "/o")
      [SpecializedItem.make "/s/d" "config<box1>",
       SpecializedItem.make "/s/d" "config",
       SpecializedItem.make "/s/d" "config<alice@box1>"] =
      some (Container.mk "/s" "/o"
        [("/o/d/config", Entry.mk "/s/d/config<alice@box1>" 3)]) := by
    decide
  exact C2_userhost_selected "alice" "box1" "/s" "/o" (by decide) (by decide) (by decide)
    (by decide)
    (SpecializedItem.make "/s/d" "config<box1>")
    (SpecializedItem.make "/s/d" "config<alice@box1>")
    (SpecializedItem.make "/s/d" "config")
    "config" "config" "config" "/o/d/config"
    rfl rfl rfl rfl rfl rfl rfl rfl rfl (by decide) hrun

/-- C3: running add over any list of items from a fresh container keeps at
most one entry per destination (the keys stay distinct); the entry stored
for a destination is the first candidate attaining the maximum priority
among the candidates for it; and a single add replaces an incumbent
exactly when its priority is strictly greater, an equal-priority later add
leaving the container untouched. -/
theorem C3_map_invariant (u h sR dR : String) (l : List SpecializedItem) {c' : Container}
    (hrun : addAll u h (Container.init sR dR) l = some c') :
    ((c'.map.map Prod.fst).Nodup) ∧
    (∀ D : String, lookupD D c'.map = candMaxFirst (cands u h sR dR D l)) ∧
    (∀ (c : Container) (it : SpecializedItem) (d : String) (p : Int)
        (c₁ : Container) (e : Entry),
      it.destination = some d → get_priority u h it = .ok p →
      c.add u h it = some c₁ →
      lookupD (destPathR c.srcRoot c.dstRoot it.directory d) c.map = some e →
      ((e.priority < p →
        lookupD (destPathR c.srcRoot c.dstRoot it.directory d) c₁.map =
          some (Entry.mk (srcPathR c.srcRoot it.directory it.filename) p)) ∧
       (¬ e.priority < p → c₁ = c))) := by
  refine ⟨addAll_nodup hrun List.nodup_nil, ?_, ?_⟩
  · intro D
    obtain ⟨_, _, hl⟩ := addAll_lookup hrun D
    rw [hl]
    show (cands u h sR dR D l).foldl entryStep none = candMaxFirst (cands u h sR dR D l)
    exact foldl_entryStep_none _
  · intro c it d p c₁ e hdst hp hadd he
    rw [add_eq hdst hp, he] at hadd
    injection hadd with hc₁
    subst hc₁
    constructor
    · intro hlt
      have hsr : shouldReplace (some e) p = true := decide_eq_true hlt
      show lookupD (destPathR c.srcRoot c.dstRoot it.directory d)
          (if shouldReplace (some e) p
           then setKey c.map (destPathR c.srcRoot c.dstRoot it.directory d)
             (Entry.mk (srcPathR c.srcRoot it.directory it.filename) p)
           else c.map) = some (Entry.mk (srcPathR c.srcRoot it.directory it.filename) p)
      rw [if_pos hsr]
      exact lookupD_setKey_self _ _ _
    · intro hnlt
      have hsr : shouldReplace (some e) p = false := decide_eq_false hnlt
      show Container.mk c.srcRoot c.dstRoot
          (if shouldReplace (some e) p
           then setKey c.map (destPathR c.srcRoot c.dstRoot it.directory d)
             (Entry.mk (srcPathR c.srcRoot it.directory it.filename) p)
           else c.map) = c
      rw [if_neg (by rw [hsr]; exact Bool.false_ne_true)]

/-- Witness for C3: a concrete two-candidate run, where the stored entry is
the maximum-priority candidate. -/
theorem C3_witness :
    lookupD "/o/d/f" [("/o/d/f", Entry.mk "/s/d/f<bx>" 1)] =
      candMaxFirst (cands "al" "bx" "/s" "/o" "/o/d/f"
        [SpecializedItem.make "/s/d" "f", SpecializedItem.make "/s/d" "f<bx>"]) := by
  have hrun : addAll "al" "bx" (Container.init "/s" "/o")
      [SpecializedItem.make "/s/d" "f", SpecializedItem.make "/s/d" "f<bx>"] =
      some (Container.mk "/s" "/o" [("/o/d/f", Entry.mk "/s/d/f<bx>" 1)]) := by
    decide
  exact (C3_map_invariant "al" "bx" "/s" "/o"
    [SpecializedItem.make "/s/d" "f", SpecializedItem.make "/s/d" "f<bx>"] hrun).2.1
    "/o/d/f"

/-- C7: the claim says a candidate whose qualifier equals none of the
three literal forms is never added, for every identity.  The
counterexample: with host a dot b, the qualifier axb equals none of the
three forms, yet the interpolated dot makes the pattern accept it, and the
run stores an entry for its destination. -/
theorem C7_counterexample :
    ("axb" : String) ≠ "a.b" ∧ ("axb" : String) ≠ "u" ∧
    ("axb" : String) ≠ "u" ++ "@" ++ "a.b" ∧
    processFiles "u" "a.b" (fun _ => false) (Container.init "/s" "/o")
      [("/s/d", "f<axb>")] =
      some (Container.mk "/s" "/o" [("/o/d/f", Entry.mk "/s/d/f<axb>" 1)]) ∧
    lookupD "/o/d/f" [("/o/d/f", Entry.mk "/s/d/f<axb>" 1)] =
      some (Entry.mk "/s/d/f<axb>" 1) := by
  decide

/-- C7 (amended): for an identity free of regex metacharacters, a
destination all of whose candidate files carry a qualifier that is
literally none of host, username, username at host, or one of these with a
trailing newline, receives no entry over a whole run of the main loop from
a fresh container; and every priority stored in the map is non-negative,
the -1 score never reaching the map. -/
theorem C7_invalid_never_added (u h : String) (hu : plainStr u = true)
    (hh : plainStr h = true) (ig : String → Bool) (sR dR : String)
    (l : List (String × String)) {c' : Container}
    (hrun : processFiles u h ig (Container.init sR dR) l = some c') :
    (∀ D : String,
      (∀ pr ∈ l, ∀ d : String,
        (SpecializedItem.make pr.1 pr.2).destination = some d →
        destPathR sR dR pr.1 d = D →
        ∃ sp : String, (SpecializedItem.make pr.1 pr.2).specialization = some sp ∧
          sp ≠ h ∧ sp ≠ u ∧ sp ≠ u ++ "@" ++ h ∧
          sp ≠ h ++ "\n" ∧ sp ≠ u ++ "\n" ∧ sp ≠ u ++ "@" ++ h ++ "\n") →
      lookupD D c'.map = none) ∧
    (∀ x ∈ c'.map, 0 ≤ x.2.priority) := by
  constructor
  · intro D hex
    have hexc : ∀ pr ∈ l, ∀ d : String,
        (SpecializedItem.make pr.1 pr.2).destination = some d →
        destPathR (Container.init sR dR).srcRoot (Container.init sR dR).dstRoot pr.1 d
          = D →
        is_valid u h (SpecializedItem.make pr.1 pr.2) = .ok false ∨ ig pr.2 = true := by
      intro pr hpr d hd hpath
      obtain ⟨sp, hsp, h1, h2, h3, h4, h5, h6⟩ := hex pr hpr d hd hpath
      left
      rw [is_valid_of_spec hu hh hsp]
      have hfalse : ¬ (sp = h ∨ sp = u ∨ sp = u ++ "@" ++ h ∨
          sp = h ++ "\n" ∨ sp = u ++ "\n" ∨ sp = u ++ "@" ++ h ++ "\n") := by
        rintro (hb | hb | hb | hb | hb | hb)
        · exact h1 hb
        · exact h2 hb
        · exact h3 hb
        · exact h4 hb
        · exact h5 hb
        · exact h6 hb
      rw [decide_eq_false hfalse]
    have hlk := processFiles_excluded hrun hexc
    exact hlk.trans rfl
  · refine processFiles_entries hrun ?_
    intro x hx
    cases hx

/-- Witness for C7 (amended): a run over one concrete candidate whose
qualifier equals none of the six literal forms leaves its destination
empty. -/
theorem C7_witness :
    lookupD "/o/f" (Container.init "/s" "/o").map = none := by
  have hrun : processFiles "alice" "box1" (fun _ => false) (Container.init "/s" "/o")
      [("/s", "f<bob>")] = some (Container.init "/s" "/o") := by
    decide
  refine (C7_invalid_never_added "alice" "box1" (by decide) (by decide) (fun _ => false)
    "/s" "/o" [("/s", "f<bob>")] hrun).1 "/o/f" ?_
  intro pr hpr d hd hpath
  have hpr2 := List.mem_singleton.mp hpr
  subst hpr2
  refine ⟨"bob", ?_, ?_, ?_, ?_, ?_, ?_, ?_⟩ <;> decide

/-- C8: feeding a fixed set of addable candidates to a fresh container in
any two orders yields the same destination-to-entry mapping, provided no
two distinct candidate entries for one destination carry equal priority. -/
theorem C8_permutation_invariant (u h sR dR : String) {l₁ l₂ : List SpecializedItem}
    (hperm : l₁.Perm l₂)
    (htie : ∀ D : String, ∀ x ∈ cands u h sR dR D l₁, ∀ y ∈ cands u h sR dR D l₁,
      x.priority = y.priority → x = y)
    {c₁ c₂ : Container}
    (hrun₁ : addAll u h (Container.init sR dR) l₁ = some c₁)
    (hrun₂ : addAll u h (Container.init sR dR) l₂ = some c₂) :
    ∀ D : String, lookupD D c₁.map = lookupD D c₂.map := by
  intro D
  obtain ⟨_, _, hl₁⟩ := addAll_lookup hrun₁ D
  obtain ⟨_, _, hl₂⟩ := addAll_lookup hrun₂ D
  rw [hl₁, hl₂]
  show (cands u h sR dR D l₁).foldl entryStep none =
    (cands u h sR dR D l₂).foldl entryStep none
  rw [foldl_entryStep_none, foldl_entryStep_none]
  exact candMaxFirst_perm (hperm.filterMap _) (htie D)

/-- Witness for C8: two unqualified files in distinct directories added in
both orders give the same mapping. -/
theorem C8_witness :
    lookupD "/o/a/f"
      [("/o/a/f", Entry.mk "/s/a/f" 0), ("/o/b/f", Entry.mk "/s/b/f" 0)] =
    lookupD "/o/a/f"
      [("/o/b/f", Entry.mk "/s/b/f" 0), ("/o/a/f", Entry.mk "/s/a/f" 0)] := by
  have hrun₁ : addAll "al" "bx" (Container.init "/s" "/o")
      [SpecializedItem.make "/s/a" "f", SpecializedItem.make "/s/b" "f"] =
      some (Container.mk "/s" "/o"
        [("/o/a/f", Entry.mk "/s/a/f" 0), ("/o/b/f", Entry.mk "/s/b/f" 0)]) := by
    decide
  have hrun₂ : addAll "al" "bx" (Container.init "/s" "/o")
      [SpecializedItem.make "/s/b" "f", SpecializedItem.make "/s/a" "f"] =
      some (Container.mk "/s" "/o"
        [("/o/b/f", Entry.mk "/s/b/f" 0), ("/o/a/f", Entry.mk "/s/a/f" 0)]) := by
    decide
  refine C8_permutation_invariant "al" "bx" "/s" "/o" (by decide) ?_ hrun₁ hrun₂ "/o/a/f"
  intro D x hx y hy hxy
  obtain ⟨itx, hitx, dx, px, hdx, hpx, hDx, hex⟩ := mem_cands hx
  obtain ⟨ity, hity, dy, py, hdy, hpy, hDy, hey⟩ := mem_cands hy
  simp only [List.mem_cons, List.not_mem_nil, or_false] at hitx hity
  have hxa : ∀ it, it = SpecializedItem.make "/s/a" "f" ∨ it = SpecializedItem.make "/s/b" "f" →
      ∀ d, it.destination = some d → d = "f" := by
    rintro it (rfl | rfl) d hd <;>
      exact (Option.some.inj hd).symm
  have hdx' := hxa itx hitx dx hdx
  have hdy' := hxa ity hity dy hdy
  subst hdx'
  subst hdy'
  rcases hitx with rfl | rfl <;> rcases hity with rfl | rfl
  · have hpq : px = py := PyVal.ok.inj (hpx.symm.trans hpy)
    rw [hex, hey, hpq]
  · rw [← hDy] at hDx
    exact absurd hDx (by decide)
  · rw [← hDy] at hDx
    exact absurd hDx (by decide)
  · have hpq : px = py := PyVal.ok.inj (hpx.symm.trans hpy)
    rw [hex, hey, hpq]
